import Mathlib

/-!
Verification of the document ingestion and retrieval pipeline of the
business-chatbot-system repository.

The JavaScript sources are shallowly embedded here:
* `FileProcessor` (src/lib/file-processor.mjs): text chunking, content
  categorization, contact extraction and contact-card injection;
* `AISystem` (the ai-system module): cosine similarity, contact-like query
  detection, retrieval with the contact override, response generation;
* the per-file chunk ingestion loop of `POST /admin/business/create-and-upload`
  (src/server.mjs).

Strings are modelled as lists of characters (JavaScript code units are
approximated by `Char`; every string the heuristics inspect is plain text).
Retrieval similarities, opaque inputs to the ranking logic, are modelled over
`ℚ`; the categorizer's IEEE-double score arithmetic is modelled exactly, as
dyadic rationals with round-to-nearest-even (`roundDouble` below); and the
real-valued cosine formula is modelled over `ℝ`.
-/

namespace BusinessChatbot

/-! ## JavaScript string primitives

`isJsWs` is the JavaScript `\s` / `String.prototype.trim` character class
(WhiteSpace plus LineTerminator productions). -/

def isJsWs (c : Char) : Bool :=
  c = ' ' || c = '\t' || c = '\n' || c = '\r' ||
  c = '\u000B' || c = '\u000C' || c = '\u00A0' || c = '\u1680' ||
  ('\u2000' ≤ c && c ≤ '\u200A') || c = '\u2028' || c = '\u2029' ||
  c = '\u202F' || c = '\u205F' || c = '\u3000' || c = '\uFEFF'

/-- Drop trailing characters satisfying `p` (used for the right half of
JavaScript `trim`). -/
def dropTrail (p : Char → Bool) (l : List Char) : List Char :=
  (l.reverse.dropWhile p).reverse

/-- JavaScript `String.prototype.trim` on a character list. -/
def jsTrim (l : List Char) : List Char :=
  dropTrail isJsWs (l.dropWhile isJsWs)

/-- JavaScript `String.prototype.toLowerCase`, restricted to the
`Char.toLower` mapping (the texts the heuristics compare are ASCII). -/
def jsLower (l : List Char) : List Char := l.map Char.toLower

/-- JavaScript `hay.includes(needle)`: substring containment. -/
def containsSub (hay needle : List Char) : Bool :=
  match hay with
  | [] => needle.isEmpty
  | _ :: t => needle.isPrefixOf hay || containsSub t needle

/-- Split a character list at every newline, JavaScript `str.split('\n')`
(the result is always non-empty; an empty input gives `[[]]`). -/
def splitNl (l : List Char) : List (List Char) :=
  match l with
  | [] => [[]]
  | c :: rest =>
    if c = '\n' then [] :: splitNl rest
    else
      match splitNl rest with
      | [] => [[c]]
      | line :: lines => (c :: line) :: lines

/-- The slice `text.slice(i, j)` of JavaScript, on character lists. -/
def jsSlice (l : List Char) (i j : ℕ) : List Char :=
  (l.drop i).take (j - i)

namespace FileProcessor

/-! ## Chunker — `FileProcessor.chunkText` (src/lib/file-processor.mjs:152-182)

```js
static chunkText(text, maxLength = 1000, overlap = 200) {
  if (!text || text.length <= maxLength) { return text ? [text] : []; }
  const chunks = []; let start = 0;
  while (start < text.length) {
    let end = Math.min(start + maxLength, text.length);
    if (end < text.length) {
      const lastParaBreak = text.lastIndexOf('\n\n', end);
      const lastSentence = text.lastIndexOf('.', end);
      const lastNewline = text.lastIndexOf('\n', end);
      let breakPoint = Math.max(lastParaBreak, lastSentence, lastNewline);
      if (breakPoint <= start + maxLength * 0.5) breakPoint = -1;
      if (breakPoint > start) end = breakPoint + 1;
    }
    const chunk = text.slice(start, end).trim();
    if (chunk) chunks.push(chunk);
    const nextStart = Math.max(start + 1, end - overlap);
    if (nextStart <= start) break;
    start = nextStart;
  }
  return chunks;
}
```

`lastIndexOf(needle, end)` returns the largest occurrence index `≤ end`,
or `-1`; occurrence indices are modelled with `Option ℕ`.  The float test
`breakPoint <= start + maxLength * 0.5` on the integer `breakPoint` is
equivalent to `breakPoint ≤ start + maxLength / 2` in natural-number
(floor) division: for even `maxLength` the bound is exact, and for odd
`maxLength` the extra `0.5` never admits another integer. -/

/-- Largest `i ≤ upTo` at which `needle` occurs in `s` (JavaScript
`s.lastIndexOf(needle, upTo)`, with `none` for `-1`). -/
def lastIndexOfWithin (s needle : List Char) (upTo : ℕ) : Option ℕ :=
  ((List.range (upTo + 1)).filter (fun i => needle.isPrefixOf (s.drop i))).getLast?

/-- The `Math.max` over the three break-point searches, as an `Option`. -/
def maxOpt (a b : Option ℕ) : Option ℕ :=
  match a, b with
  | none, b => b
  | a, none => a
  | some x, some y => some (max x y)

/-- The adjusted window end of one `chunkText` iteration: the naive end is
`e0 = min (start + maxLength) len`, and when `e0 < len` the break-point
search may move it to `breakPoint + 1`. -/
def chunkEnd (text : List Char) (maxLength start : ℕ) : ℕ :=
  let e0 := min (start + maxLength) text.length
  if e0 < text.length then
    let bp := maxOpt (maxOpt
        (lastIndexOfWithin text ['\n', '\n'] e0)
        (lastIndexOfWithin text ['.'] e0))
        (lastIndexOfWithin text ['\n'] e0)
    match bp with
    | some b => if start + maxLength / 2 < b then b + 1 else e0
    | none => e0
  else e0

/-- The `nextStart = Math.max(start + 1, end - overlap)` of one iteration. -/
def chunkNextStart (text : List Char) (maxLength overlap start : ℕ) : ℕ :=
  max (start + 1) (chunkEnd text maxLength start - overlap)

/-- The `while (start < text.length)` loop of `chunkText`.  The loop advances
`start` by at least one per iteration (`chunkNextStart_gt` below), so
`text.length` iterations always suffice; the structural `gas` parameter only
counts iterations and never changes the result as long as
`text.length ≤ gas + start` (`chunkLoop_gas_irrel` below). -/
def chunkLoop (text : List Char) (maxLength overlap : ℕ) :
    ℕ → ℕ → List (List Char)
  | 0, _ => []
  | gas + 1, start =>
    if start < text.length then
      if jsTrim (jsSlice text start (chunkEnd text maxLength start)) = [] then
        chunkLoop text maxLength overlap gas
          (chunkNextStart text maxLength overlap start)
      else
        jsTrim (jsSlice text start (chunkEnd text maxLength start)) ::
          chunkLoop text maxLength overlap gas
            (chunkNextStart text maxLength overlap start)
    else []

/-- The `FileProcessor.chunkText` on character lists. -/
def chunkText (text : List Char) (maxLength overlap : ℕ) : List (List Char) :=
  if text = [] then []
  else if text.length ≤ maxLength then [text]
  else chunkLoop text maxLength overlap text.length 0

/-! ## Categorizer — `FileProcessor.categorizeContent`
(src/lib/file-processor.mjs:205-269)

Scores are computed as `(count + nameMatch) * weight` accumulated per
keyword, plus fixed bonuses, in IEEE-754 binary64 arithmetic (JavaScript
numbers).  Every binary64 value is a dyadic rational, and each JavaScript
`+` / `*` performs the exact rational operation followed by rounding to 53
significant bits, round-to-nearest-ties-to-even.  `roundDouble` below
implements exactly that rounding on `ℚ` (for the normal range; the scores
reachable here are 0 or of magnitude between 0.8 and far below `2^1024`, so
no overflow, underflow or subnormal rounding can occur), so `dAdd` / `dMul`
agree bit-for-bit with the source's float operations, and the non-dyadic
literals `1.2` and `0.8` denote `roundDouble (6/5)` and `roundDouble (4/5)`:
for example `3 * 1.2 = 3.5999999999999996 < 2 * 0.8 + 2 = 3.6000000000000001`
exactly as in the program. -/

/-- Integer powers of two as rationals. -/
def pow2 (z : ℤ) : ℚ :=
  if 0 ≤ z then ((2 ^ z.toNat : ℕ) : ℚ) else 1 / ((2 ^ (-z).toNat : ℕ) : ℚ)

/-- For `q > 0`, the exponent `e` with `2 ^ e ≤ q < 2 ^ (e + 1)`. -/
def dExp (q : ℚ) : ℤ :=
  let c : ℤ := (Nat.log2 q.num.natAbs : ℤ) - (Nat.log2 q.den : ℤ)
  if q < pow2 c then c - 1 else c

/-- Round a rational to the nearest IEEE-754 binary64 value (53 significant
bits, ties to even; normal range). -/
def roundDouble (q : ℚ) : ℚ :=
  if q = 0 then 0
  else
    let e := dExp |q|
    let scaled := |q| * pow2 (52 - e)
    let n := ⌊scaled⌋
    let n2 := if 1 / 2 < scaled - (n : ℚ) then n + 1
      else if scaled - (n : ℚ) < 1 / 2 then n
      else if n % 2 = 0 then n else n + 1
    (if q < 0 then -1 else 1) * (n2 : ℚ) * pow2 (e - 52)

/-- JavaScript `+` on numbers. -/
def dAdd (x y : ℚ) : ℚ := roundDouble (x + y)

/-- JavaScript `*` on numbers. -/
def dMul (x y : ℚ) : ℚ := roundDouble (x * y)

/-- The scan of the source `countKeyword` (`indexOf` loop with
`pos += keyword.length`): non-overlapping occurrence count.  The `skip`
counter stands for the remaining characters of the current match; the scan
advances one character per step.  (The source is never called with an empty
keyword.) -/
def countOccGo (needle : List Char) : List Char → ℕ → ℕ
  | [], _ => 0
  | c :: t, skip =>
    if 0 < skip then countOccGo needle t (skip - 1)
    else if needle.isPrefixOf (c :: t) then 1 + countOccGo needle t (needle.length - 1)
    else countOccGo needle t 0

/-- The `countKeyword(content, keyword)` of the source (the keyword is
lowercased by the caller side of the model). -/
def countKeyword (hay needle : List Char) : ℕ := countOccGo needle hay 0

/-- The fixed category table, in declaration order; each weight is the
binary64 value of the source literal (`1.5` and `1.0` are exact; `1.2` and
`0.8` are the nearest doubles to `6/5` and `4/5`). -/
def categoryTable : List (String × List String × ℚ) := [
  ("hours", ["hours", "timing", "schedule", "monday", "tuesday", "wednesday",
    "thursday", "friday", "saturday", "sunday", "am", "pm", "open", "close",
    "operating", "business hours", "opening hours", "closing time", "weekdays",
    "weekends"], roundDouble (3 / 2)),
  ("contact", ["contact", "phone", "email", "address", "location", "call",
    "reach", "telephone", "mobile", "whatsapp", "gmail", "yahoo", "hotmail",
    "street", "city", "pincode", "zip"], roundDouble (6 / 5)),
  ("menu", ["menu", "food", "dish", "cuisine", "appetizer", "starter", "main",
    "dessert", "beverage", "drink", "curry", "rice", "bread", "naan",
    "biryani", "pizza", "burger", "sandwich", "salad", "soup"], roundDouble 1),
  ("reservations", ["reservation", "booking", "table", "seat", "waitlist",
    "book", "reserve", "advance booking", "party size", "group booking"], roundDouble 1),
  ("courses", ["course", "program", "curriculum", "subject", "syllabus",
    "class", "lecture", "tutorial", "workshop", "training", "certification",
    "degree", "diploma", "semester", "batch", "module"], roundDouble 1),
  ("admissions", ["admission", "enroll", "enrollment", "application", "apply",
    "eligibility", "requirement", "entrance", "selection", "interview",
    "document", "form", "deadline", "registration"], roundDouble 1),
  ("faculty", ["faculty", "teacher", "instructor", "professor", "trainer",
    "staff", "experience", "qualification", "expertise", "teaching",
    "mentor"], roundDouble 1),
  ("services", ["service", "treatment", "therapy", "consultation", "diagnosis",
    "procedure", "surgery", "checkup", "examination", "test", "scan", "x-ray",
    "medicine", "prescription"], roundDouble 1),
  ("doctors", ["doctor", "physician", "specialist", "surgeon", "consultant",
    "medical", "clinic", "hospital", "patient", "appointment"], roundDouble 1),
  ("pricing", ["price", "cost", "fee", "charge", "rate", "tariff", "amount",
    "rupee", "dollar", "payment", "discount", "offer", "package deal"], roundDouble (4 / 5)),
  ("delivery", ["delivery", "takeaway", "pickup", "order", "shipping",
    "courier", "packaging", "home delivery", "online order", "swiggy",
    "zomato", "uber eats"], roundDouble 1),
  ("directions", ["direction", "map", "location", "parking", "metro", "bus",
    "transport", "landmark", "route", "distance", "accessibility",
    "wheelchair", "elevator"], roundDouble 1),
  ("policies", ["policy", "terms", "condition", "rule", "regulation",
    "guideline", "cancellation", "refund", "privacy", "terms of service",
    "disclaimer"], roundDouble 1),
  ("events", ["event", "catering", "party", "celebration", "wedding",
    "corporate", "meeting", "conference", "birthday", "anniversary",
    "private dining", "banquet"], roundDouble 1),
  ("amenities", ["amenity", "facility", "wifi", "parking", "washroom",
    "restroom", "air conditioning", "seating", "comfort", "convenience",
    "infrastructure"], roundDouble 1),
  ("technology", ["app", "website", "online", "digital", "software",
    "platform", "login", "account", "password", "registration", "download",
    "mobile app"], roundDouble 1),
  ("support", ["support", "help", "assistance", "customer service",
    "helpline", "complaint", "feedback", "query", "question", "issue",
    "problem", "solution"], roundDouble 1),
  ("offers", ["offer", "deal", "promotion", "discount", "coupon", "loyalty",
    "reward", "points", "cashback", "special", "combo", "package"], roundDouble 1),
  ("dietary", ["dietary", "allergen", "vegan", "vegetarian", "gluten",
    "dairy", "nut", "sugar", "organic", "healthy", "nutrition", "calorie",
    "ingredient"], roundDouble 1),
  ("faq", ["faq", "frequently asked", "question", "answer", "common",
    "query", "doubt", "clarification"], roundDouble 1),
  ("social", ["social", "instagram", "facebook", "twitter", "youtube",
    "linkedin", "follow", "share", "community", "review", "rating"], roundDouble 1)]

/-- Per-category score: `score += (count + nameMatch) * weight` accumulated
over the keywords in order, in binary64 arithmetic (`count + nameMatch` is a
small exact integer, so only the multiplication and the running sum round). -/
def categoryScore (content name : List Char) (kws : List String) (w : ℚ) : ℚ :=
  kws.foldl (fun acc kw =>
    dAdd acc (dMul ((countKeyword content (jsLower kw.toList) +
      (if containsSub name (jsLower kw.toList) then 1 else 0) : ℕ) : ℚ) w)) 0

/-- Add a fixed bonus to one named category's entry (a binary64 addition). -/
def addBonus (scores : List (String × ℚ)) (cat : String) (delta : ℚ) :
    List (String × ℚ) :=
  scores.map (fun pv => if pv.1 = cat then (pv.1, dAdd pv.2 delta) else pv)

/-- All category scores, in declaration order, including the currency,
phone-prefix and email bonus points of the source. -/
def scoresList (text filename : String) : List (String × ℚ) :=
  let content := jsLower text.toList
  let name := jsLower filename.toList
  let s0 := categoryTable.map (fun cw => (cw.1, categoryScore content name cw.2.1 cw.2.2))
  let s1 := if containsSub content "₹".toList || containsSub content "$".toList ||
      containsSub content "€".toList then addBonus s0 "pricing" 2 else s0
  let s2 := if containsSub content "+91".toList || containsSub content "+1".toList ||
      containsSub content "phone:".toList || containsSub content "tel:".toList then
      addBonus s1 "contact" 3 else s1
  if containsSub content "@".toList && (containsSub content ".com".toList ||
      containsSub content ".in".toList || containsSub content ".org".toList) then
    addBonus s2 "contact" 2 else s2

/-- The `Math.max(...Object.values(scores))`; every score is non-negative
(an accumulation of non-negative doubles), so the fold with base 0 agrees
with the source maximum. -/
def maxScore (text filename : String) : ℚ :=
  ((scoresList text filename).map Prod.snd).foldr max 0

/-- The `FileProcessor.categorizeContent`.  The source's final
`Object.entries(scores).find(([, score]) => score === maxScore)` always
succeeds (the maximum is attained); the `none` branch is unreachable. -/
def categorizeContent (text filename : String) : String :=
  if maxScore text filename = 0 then "general"
  else
    match (scoresList text filename).find? (fun pv => pv.2 = maxScore text filename) with
    | some pv => pv.1
    | none => "general"

/-! ## Contact extraction — `FileProcessor.extractContactInfo` and
`FileProcessor.appendContactCard` (src/lib/file-processor.mjs:276-474)

Every regular expression of the source is small enough to admit a direct
character-level matcher with identical semantics:

* `/(\+?\d[\d\s\-()]{8,})/g` — an optional `+`, a digit, then a greedy run of
  at least eight characters from the class; `exec` restarts after each match.
* `/^\+?0+(\d)/` inside `normalizePhone` — greedy leading-zero collapsing
  with one-step backtracking when the zeros run to the end of the string.
* the label patterns `/Label1\s*sep\s*Label2\s*:\s*([^\n]+)/i` — literals
  separated by `\s*`; each `\s*` is followed by a character that is never
  whitespace, so matching is deterministic, except for the final `\s*` before
  the group, which backtracks only when the string ends in whitespace.
-/

/-- JavaScript `\d`. -/
def isDigit (c : Char) : Bool := '0' ≤ c && c ≤ '9'

/-- The character class `[\d\s\-()]` of the loose phone regex. -/
def phoneClass (c : Char) : Bool :=
  isDigit c || isJsWs c || c = '-' || c = '(' || c = ')'

/-- Length of the match of `/\+?\d[\d\s\-()]{8,}/` anchored at the start of
`s`, if any. -/
def phoneMatchLen (s : List Char) : Option ℕ :=
  match s with
  | [] => none
  | c :: rest =>
    if c = '+' then
      match rest with
      | [] => none
      | d :: rest2 =>
        if isDigit d then
          if 8 ≤ (rest2.takeWhile phoneClass).length then
            some (2 + (rest2.takeWhile phoneClass).length)
          else none
        else none
    else if isDigit c then
      if 8 ≤ (rest.takeWhile phoneClass).length then
        some (1 + (rest.takeWhile phoneClass).length)
      else none
    else none

/-- The `exec` loop of the loose phone regex: leftmost matches, each scan
resuming after the previous match.  `fuel` only bounds the number of steps;
`s.length` always suffices because every step consumes at least one
character. -/
def phoneScanGo : ℕ → List Char → List (List Char)
  | 0, _ => []
  | fuel + 1, s =>
    match s with
    | [] => []
    | c :: t =>
      match phoneMatchLen (c :: t) with
      | some len => (c :: t).take len :: phoneScanGo fuel ((c :: t).drop len)
      | none => phoneScanGo fuel t

def phoneRawMatches (s : List Char) : List (List Char) := phoneScanGo s.length s

/-- The class kept by `normalizePhone`'s first replace (`[^+\d]` removed). -/
def keepPlusDigit (c : Char) : Bool := c = '+' || isDigit c

/-- The second replace of `normalizePhone`: `/^\+?0+(\d)/ → '+$1'`. -/
def collapseLeadZeros (t : List Char) : List Char :=
  let u := if t.head? = some '+' then t.tail else t
  let z := (u.takeWhile (fun c => c = '0')).length
  if z = 0 then t
  else if z < u.length then
    if isDigit (u.getD z 'x') then '+' :: u.drop z
    else if 2 ≤ z then '+' :: '0' :: u.drop z
    else t
  else if 2 ≤ z then ['+', '0'] else t

def normalizePhone (s : List Char) : List Char :=
  collapseLeadZeros (s.filter keepPlusDigit)

/-- First-occurrence-order deduplication (JavaScript `new Set`). -/
def uniqueGo : List (List Char) → List (List Char) → List (List Char)
  | [], _ => []
  | x :: xs, seen =>
    if x ∈ seen then uniqueGo xs seen else x :: uniqueGo xs (x :: seen)

/-- The `unique = Array.from(new Set(arr.filter(Boolean)))`. -/
def unique (l : List (List Char)) : List (List Char) :=
  uniqueGo (l.filter (fun x => !x.isEmpty)) []

/-- The `extractPhonesFrom`: trim each raw match and keep it (raw, untouched by
normalization) when the normalized form has at least ten digits. -/
def extractPhonesFrom (src : List Char) : List (List Char) :=
  unique (((phoneRawMatches src).map jsTrim).filter
    (fun raw => 10 ≤ (normalizePhone raw).countP isDigit))

/-- JavaScript `hay.indexOf(needle, start)` as an `Option`. -/
def idxOfFrom (hay needle : List Char) (start : ℕ) : Option ℕ :=
  (((List.range (hay.length + 1)).filter
    (fun p => decide (start ≤ p) && needle.isPrefixOf (hay.drop p)))).head?

/-- The `iIndexOf`: case-insensitive `indexOf`. -/
def iIndexOf (hay needle : List Char) (start : ℕ) : Option ℕ :=
  idxOfFrom (jsLower hay) (jsLower needle) start

/-- The `findHeaderIndex`: the first *option* that occurs anywhere wins (option
order, not text order). -/
def findHeaderIndex (hay : List Char) : List (List Char) → Option ℕ
  | [] => none
  | opt :: rest =>
    match iIndexOf hay opt 0 with
    | some idx => some idx
    | none => findHeaderIndex hay rest

/-- First character class of `isAllCapsHeader`'s regex: `[A-Z0-9]`. -/
def capsFirst (c : Char) : Bool := ('A' ≤ c && c ≤ 'Z') || isDigit c

/-- Rest class of `isAllCapsHeader`'s regex. -/
def capsRest (c : Char) : Bool :=
  capsFirst c || c = ' ' || c = '/' || c = '&' || c = '+' || c = '-' ||
  c = '’' || c = '\'' || c = '“' || c = '”' || c = '"' ||
  c = '–' || c = '—' || c = ':' || c = '(' || c = ')'

/-- The `isAllCapsHeader(line)`: `/^[A-Z0-9][A-Z0-9 /&+\-'"–—:()]+$/` (with the
curly-quote variants) applied to the trimmed line. -/
def isAllCapsHeader (line : List Char) : Bool :=
  match jsTrim line with
  | [] => false
  | c :: rest => capsFirst c && !rest.isEmpty && rest.all capsRest

/-- The walk of `nextHeaderOrBlank` over the lines after `startPos`:
`offset` accumulates `lines[i-1].length + 1` and stops at the first blank or
ALL-CAPS-header line. -/
def nhoGo : List Char → List (List Char) → ℕ → Option ℕ
  | _, [], _ => none
  | prev, l :: ls, offset =>
    if jsTrim l = [] || isAllCapsHeader l then some (offset + prev.length + 1)
    else nhoGo l ls (offset + prev.length + 1)

def nextHeaderOrBlank (hay : List Char) (startPos : ℕ) : ℕ :=
  match splitNl (hay.drop startPos) with
  | [] => hay.length
  | first :: rest =>
    match nhoGo first rest 0 with
    | some off => startPos + off
    | none => hay.length

def getSection (hay : List Char) (headerOptions : List (List Char)) : List Char :=
  match findHeaderIndex hay headerOptions with
  | none => []
  | some idx => jsSlice hay idx (nextHeaderOrBlank hay idx)

/-- Match a `\s*`-separated sequence of literals against the lowercased text,
starting exactly at position `p` (no leading `\s*` before the first literal);
returns the position after the last literal.  Each literal begins with a
non-whitespace character, so the greedy `\s*` runs are deterministic. -/
def matchLitsRest (low : List Char) : List (List Char) → ℕ → Option ℕ
  | [], p => some p
  | l :: rest, p =>
    let q := p + ((low.drop p).takeWhile isJsWs).length
    if l.isPrefixOf (low.drop q) then matchLitsRest low rest (q + l.length)
    else none

def matchLitsFrom (low : List Char) (lits : List (List Char)) (p : ℕ) : Option ℕ :=
  match lits with
  | [] => some p
  | l :: rest =>
    if l.isPrefixOf (low.drop p) then matchLitsRest low rest (p + l.length)
    else none

/-- Largest position in `[p, t)` holding a non-newline character (the
backtracking step of the final `\s*` when the string ends in whitespace). -/
def lastNonNlIn (src : List Char) (p t : ℕ) : Option ℕ :=
  ((List.range t).filter
    (fun j => decide (p ≤ j) && !decide (src.getD j '\n' = '\n'))).getLast?

/-- The group `\s*([^\n]+)` anchored at `p` (greedy `\s*` with backtracking
only at end of string). -/
def groupNonNl (src : List Char) (p : ℕ) : Option (List Char) :=
  let t := p + ((src.drop p).takeWhile isJsWs).length
  if t < src.length then some ((src.drop t).takeWhile (fun c => !(c = '\n')))
  else
    match lastNonNlIn src p t with
    | some j => some ((src.drop j).takeWhile (fun c => !(c = '\n')))
    | none => none

/-- The group `\s*([^\s\n]+)` anchored at `p` (no backtracking: the group
class excludes every whitespace character). -/
def groupNonWs (src : List Char) (p : ℕ) : Option (List Char) :=
  let t := p + ((src.drop p).takeWhile isJsWs).length
  if t < src.length then some ((src.drop t).takeWhile (fun c => !(isJsWs c)))
  else none

/-- One attempt of a label regex at position `p`: literals against the
lowercased text, then the capture group against the original text. -/
def labelMatchAt (src low : List Char) (lits : List (List Char))
    (groupNl : Bool) (p : ℕ) : Option (List Char) :=
  match matchLitsFrom low lits p with
  | none => none
  | some q => if groupNl then groupNonNl src q else groupNonWs src q

/-- The `src.match(regex)` for a label regex: the leftmost successful position
wins. -/
def labelSearch (src : List Char) (lits : List String) (groupNl : Bool) :
    Option (List Char) :=
  (List.range (src.length + 1)).findSome?
    (labelMatchAt src (jsLower src) (lits.map (fun l => jsLower l.toList)) groupNl)

/-- The `Tel(?:ephone)?\s*:\s*([^\n]+)`: at each position the greedy optional
group tries `telephone` first, then `tel`; the leftmost position wins. -/
def telSearch (src : List Char) : Option (List Char) :=
  (List.range (src.length + 1)).findSome? (fun p =>
    match labelMatchAt src (jsLower src) [("telephone").toList, (":").toList] true p with
    | some g => some g
    | none => labelMatchAt src (jsLower src) [("tel").toList, (":").toList] true p)

/-- The `take(src, regex)`: first match's capture group, trimmed. -/
def takeLabel (src : List Char) (lits : List String) (groupNl : Bool) :
    Option (List Char) :=
  (labelSearch src lits groupNl).map jsTrim

/-- JavaScript truthiness of a nullable string (`null` and `''` are falsy). -/
def optTruthy : Option (List Char) → Bool
  | some s => !s.isEmpty
  | none => false

/-- JavaScript `a || b` on nullable strings. -/
def jsOr (x y : Option (List Char)) : Option (List Char) :=
  if optTruthy x then x else y

/-- The ordered `phoneLabelRegexes` loop: every regex is tried (no break);
each match contributes `extractPhonesFrom(raw)` to `phones`, and the
WhatsApp-flagged regexes update `whatsapp` to the first phone of their raw
capture when there is one (`|| whatsapp` keeps the old value otherwise). -/
def phoneLabelStep (acc : List (List Char) × Option (List Char))
    (entry : Option (List Char) × Bool) : List (List Char) × Option (List Char) :=
  match entry.1 with
  | none => acc
  | some m =>
    (acc.1 ++ extractPhonesFrom (jsTrim m),
      if entry.2 then
        match (extractPhonesFrom (jsTrim m)).head? with
        | some w => some w
        | none => acc.2
      else acc.2)

def foldPhoneLabels (block : List Char) : List (List Char) × Option (List Char) :=
  [(labelSearch block ["Phone", "/", "WhatsApp", ":"] true, true),
   (labelSearch block ["Phone", "&", "WhatsApp", ":"] true, true),
   (labelSearch block ["WhatsApp", ":"] true, true),
   (labelSearch block ["Phone", ":"] true, false),
   (telSearch block, false)].foldl phoneLabelStep ([], none)

/-- The extracted contact fields. -/
structure ContactInfo where
  phones : List (List Char)
  whatsapp : Option (List Char)
  email : Option (List Char)
  address : Option (List Char)
  website : Option (List Char)
  hours : Option (List Char)
deriving DecidableEq, Repr

def contactHeaders : List String :=
  ["CONTACT & LOCATION", "CONTACT & HOURS", "CONTACTS & HOURS",
   "CONTACT/HOURS", "CONTACT DETAILS", "CONTACT", "CONTACTS"]

def hoursHeaders : List String :=
  ["OPERATING HOURS", "HOURS", "WORKING HOURS", "BUSINESS HOURS", "TIMINGS"]

/-- The hours lines: everything after the header line up to the first blank
or ALL-CAPS-header line, joined and trimmed; `null` when empty. -/
def hoursFromBlock (hoursBlock : List Char) : Option (List Char) :=
  match splitNl hoursBlock with
  | [] => none
  | _ :: lines =>
    let stopAt := lines.findIdx (fun l => jsTrim l = [] || isAllCapsHeader l)
    let hours := jsTrim (List.intercalate ['\n'] (lines.take stopAt))
    if hours = [] then none else some hours

/-- The `const contactBlock = getSection(text, contactHeaders) || text`. -/
def contactBlockOf (text : List Char) : List Char :=
  if getSection text (contactHeaders.map String.toList) = [] then text
  else getSection text (contactHeaders.map String.toList)

/-- The phone list of `extractContactInfo`: labelled matches first, then the
contact-block fallback, then the whole-text fallback. -/
def phonesPool (text block : List Char) : List (List Char) :=
  if (if (foldPhoneLabels block).1 = [] then extractPhonesFrom block
      else (foldPhoneLabels block).1) = [] then
    extractPhonesFrom text
  else if (foldPhoneLabels block).1 = [] then extractPhonesFrom block
  else (foldPhoneLabels block).1

/-- The hours field: `null` when no hours-family header was found. -/
def hoursOf (text : List Char) : Option (List Char) :=
  if getSection text (hoursHeaders.map String.toList) = [] then none
  else hoursFromBlock (getSection text (hoursHeaders.map String.toList))

/-- The `FileProcessor.extractContactInfo`. -/
def extractContactInfo (fullText : List Char) : Option ContactInfo :=
  let text := fullText
  let contactBlock := contactBlockOf text
  let phones := phonesPool text contactBlock
  let email := jsOr (takeLabel contactBlock ["Email", ":"] false)
    (takeLabel text ["Email", ":"] false)
  let address := jsOr (takeLabel contactBlock ["Address", ":"] true)
    (takeLabel text ["Address", ":"] true)
  let website := jsOr (takeLabel contactBlock ["Website", ":"] true)
    (takeLabel text ["Website", ":"] true)
  if phones = [] && !optTruthy email && !optTruthy address &&
      !optTruthy website && !optTruthy (hoursOf text) then
    none
  else
    some { phones := unique phones, whatsapp := (foldPhoneLabels contactBlock).2,
           email := email, address := address, website := website,
           hours := hoursOf text }

/-- One card line for a truthy field, with its label. -/
def lineIf (label : String) (v : Option (List Char)) : Option (List Char) :=
  match v with
  | some s => if s.isEmpty then none else some (label.toList ++ s)
  | none => none

/-- The middle (field) entries of the `cardLines` array of
`appendContactCard`. -/
def cardMid (info : ContactInfo) : List (List Char) :=
  [(if info.phones.isEmpty then none
    else some (("Phone: ").toList ++ List.intercalate (" , ").toList info.phones)),
   lineIf "WhatsApp: " info.whatsapp,
   lineIf "Email: " info.email,
   lineIf "Address: " info.address,
   lineIf "Website: " info.website,
   lineIf "Hours:\n" info.hours].filterMap id

/-- The `cardLines` array of `appendContactCard`, with falsy entries
filtered out. -/
def renderCardLines (info : ContactInfo) : List (List Char) :=
  [some ("=== CONTACT_CARD ===").toList,
   (if info.phones.isEmpty then none
    else some (("Phone: ").toList ++ List.intercalate (" , ").toList info.phones)),
   lineIf "WhatsApp: " info.whatsapp,
   lineIf "Email: " info.email,
   lineIf "Address: " info.address,
   lineIf "Website: " info.website,
   lineIf "Hours:\n" info.hours,
   some ("=== END_CONTACT_CARD ===").toList].filterMap id

/-- The `FileProcessor.appendContactCard`: despite its name the card is
prepended — `cardLines.join('\n') + '\n\n' + cleanedText`. -/
def appendContactCard (cleanedText : List Char) : List Char :=
  match extractContactInfo cleanedText with
  | none => cleanedText
  | some info =>
    List.intercalate ['\n'] (renderCardLines info) ++ ('\n' :: '\n' :: cleanedText)

end FileProcessor

namespace AISystem

/-! ## Embedding & retrieval engine — `AISystem` (the ai-system module)

`calculateCosineSimilarity` is real-valued (the source computes in IEEE
doubles; the formula is modelled over `ℝ`).  The retrieval ranking only
compares similarity scores, so `retrieveRelevantChunks` takes the similarity
of each stored chunk against the query embedding as an opaque rational-valued
input `simOf` (the query embedding itself is produced by an external
provider). -/

/-- The `calculateCosineSimilarity(a, b)`: the loop runs over `a`'s indices, so
`normB` sums squares of `b`'s first `a.length` entries; callers always pass
embeddings of one fixed dimension, and the model assumes `b` is at least as
long as `a` (shorter `b` gives NaN in the source, outside the modelled
domain).  The denominator carries the source's `1e-8`. -/
noncomputable def calculateCosineSimilarity (a b : List ℝ) : ℝ :=
  (a.zipWith (· * ·) b).sum /
    (Real.sqrt (a.zipWith (· * ·) a).sum *
      Real.sqrt ((b.take a.length).zipWith (· * ·) (b.take a.length)).sum +
      1 / 10 ^ 8)

/-- The `AISystem.isContactLike`: fixed keyword list over the lowercased query
(`'working hours'` and `'business hours'` are subsumed by `'hours'`). -/
def isContactLike (text : String) : Bool :=
  ["contact", "phone", "call", "whatsapp", "email", "address", "location",
   "map", "reach", "visit", "hours", "timings", "working hours",
   "business hours"].any
    (fun k => containsSub (jsLower text.toList) k.toList)

/-- The `AISystem.contactChunkScore` (an empty content string is falsy and
scores 0). -/
def contactChunkScore (s : String) : ℕ :=
  if s.isEmpty then 0
  else
    (if containsSub (jsLower s.toList) ("=== contact_card ===").toList then 10 else 0) +
    (if containsSub (jsLower s.toList) ("phone:").toList then 3 else 0) +
    (if containsSub (jsLower s.toList) ("whatsapp:").toList then 2 else 0) +
    (if containsSub (jsLower s.toList) ("email:").toList then 2 else 0) +
    (if containsSub (jsLower s.toList) ("address:").toList then 2 else 0) +
    (if containsSub (jsLower s.toList) ("website:").toList then 1 else 0) +
    (if containsSub (jsLower s.toList) ("hours:").toList then 2 else 0)

/-- A stored chunk record as retrieval sees it: a database id and the chunk
text (the embedding vector only enters through `simOf`). -/
structure Chunk where
  id : ℕ
  content : String
deriving DecidableEq, Repr

/-- The `AISystem.retrieveRelevantChunks(businessId, query, topK)`:

1. score all chunks by cosine similarity against the query embedding
   (`simOf`), 2. stable-sort descending and take the top `topK`,
3. for a contact-like query, pick the positively-scored chunk with the best
   contact heuristic (stable sort descending, first element) and, unless its
   id is already selected, replace the last selected slot with it.

The JavaScript array mixes chunk records annotated with `similarity` or
`cscore`; the model returns the underlying chunk records. -/
def retrieveRelevantChunks (simOf : Chunk → ℚ) (chunks : List Chunk)
    (query : String) (topK : ℕ) : List Chunk :=
  if chunks.isEmpty then []
  else
    let scored := (chunks.map (fun c => (c, simOf c))).mergeSort
      (fun a b => decide (b.2 ≤ a.2))
    let selected := (scored.map Prod.fst).take topK
    if isContactLike query then
      match (((chunks.map (fun c => (c, contactChunkScore c.content))).filter
          (fun pc => decide (0 < pc.2))).mergeSort
          (fun a b => decide (b.2 ≤ a.2))).head? with
      | none => selected
      | some best =>
        if selected.any (fun c => c.id = best.1.id) then selected
        else selected.take (topK - 1) ++ [best.1]
    else selected

/-! ### Response generation — `AISystem.generateResponse` -/

/-- The business record consumed read-only by prompt building. -/
structure Business where
  name : String
  description : Option String
  phone : Option String
  whatsapp : Option String
  email : Option String
  address : Option String
  website : Option String
  hours : Option String
deriving Repr

/-- JavaScript truthiness of a nullable string field. -/
def strTruthy : Option String → Bool
  | some s => !s.isEmpty
  | none => false

/-- The `business.field || '—'`. -/
def orDash (v : Option String) : String :=
  match v with
  | some s => if s.isEmpty then "—" else s
  | none => "—"

def getStr (v : Option String) : String :=
  match v with
  | some s => s
  | none => ""

/-- The `AISystem.buildFallbackContactCard`. -/
def buildFallbackContactCard (b : Business) : String :=
  String.intercalate "\n"
    (["=== FALLBACK_CONTACT_CARD ==="] ++
     (if strTruthy b.phone then ["Phone: " ++ getStr b.phone] else []) ++
     (if strTruthy b.whatsapp ||
         containsSub (jsLower (getStr b.phone).toList) ("whatsapp").toList then
       (if strTruthy (jsOrStr b.whatsapp b.phone) then
         ["WhatsApp: " ++ getStr (jsOrStr b.whatsapp b.phone)] else [])
      else []) ++
     (if strTruthy b.email then ["Email: " ++ getStr b.email] else []) ++
     (if strTruthy b.address then ["Address: " ++ getStr b.address] else []) ++
     (if strTruthy b.website then ["Website: " ++ getStr b.website] else []) ++
     (if strTruthy b.hours then ["Hours:\n" ++ getStr b.hours] else []) ++
     ["=== END_FALLBACK_CONTACT_CARD ==="])
where
  jsOrStr (x y : Option String) : Option String := if strTruthy x then x else y

/-- The `AISystem.contextSeemsToHaveContact`. -/
def contextSeemsToHaveContact (context : String) : Bool :=
  ["=== contact_card ===", "phone:", "whatsapp:", "email:", "address:",
   "website:", "hours:"].any
    (fun k => containsSub (jsLower context.toList) k.toList)

/-- The `AISystem.ensureContactInContext`. -/
def ensureContactInContext (context : String) (b : Business) (query : String) :
    String :=
  if isContactLike query && !contextSeemsToHaveContact context then
    String.mk (jsTrim (buildFallbackContactCard b ++ "\n\n" ++ context).toList)
  else context

/-- The `AISystem.buildSystemPrompt`. -/
def buildSystemPrompt (b : Business) (context : String) : String :=
  let basePrompt :=
    "You are a helpful AI assistant for " ++ b.name ++ ".\n\n" ++
    "BUSINESS INFORMATION (authoritative fallback if the context lacks specifics):\n" ++
    "- Name: " ++ b.name ++ "\n" ++
    "- Description: " ++ orDash b.description ++ "\n" ++
    "- Phone: " ++ orDash b.phone ++ "\n" ++
    "- Email: " ++ orDash b.email ++ "\n" ++
    "- Address: " ++ orDash b.address ++ "\n" ++
    "- Website: " ++ orDash b.website ++ "\n" ++
    "- Hours: " ++ orDash b.hours ++ "\n\n" ++
    "PERSONALITY & STYLE:\n" ++
    "- Friendly, professional, conversational; avoid sounding robotic.\n" ++
    "- Use natural language that feels human; be concise but complete.\n" ++
    "- Offer to help further or connect with a human when appropriate.\n\n" ++
    "RESPONSE GUIDELINES:\n" ++
    "- Prefer information in the CONTEXT below. If a requested field is missing in the context, use BUSINESS INFORMATION above.\n" ++
    "- For contact/location questions, copy numbers, emails, URLs, and addresses exactly as written (no paraphrasing).\n" ++
    "- Never invent prices, dates, or details not present in the context or business info.\n" ++
    "- If something truly isn’t available in either, say so plainly and offer next steps."
  if !(String.mk (jsTrim context.toList)).isEmpty then
    basePrompt ++ "\n\nCONTEXT (retrieved knowledge):\n" ++ context ++
    "\n\nAnswer the user using the context. If the context lacks a requested field, safely backfill from BUSINESS INFORMATION. If they conflict, prefer CONTEXT."
  else basePrompt

/-- A chat message. -/
structure Msg where
  role : String
  content : String
deriving Repr

/-- The numbered `[i] content` context assembled from retrieved chunks. -/
def joinContext (relevantChunks : List Chunk) : String :=
  String.intercalate "\n\n"
    (relevantChunks.enum.map
      (fun ic => "[" ++ toString (ic.1 + 1) ++ "] " ++ ic.2.content))

/-- The message list sent to the chat model: system prompt, the last six
history turns (non-assistant roles coerced to `user`), then the query. -/
def messagesOf (b : Business) (query : String) (sessionHistory : List Msg)
    (relevantChunks : List Chunk) : List Msg :=
  ({ role := "system",
     content := buildSystemPrompt b
       (ensureContactInContext (joinContext relevantChunks) b query) } ::
    (sessionHistory.drop (sessionHistory.length - 6)).map
      (fun m => { role := if m.role = "assistant" then "assistant" else "user",
                  content := m.content })) ++
  [{ role := "user", content := query }]

/-- The `||` fallback when the completion content is missing or empty. -/
def apologyEmpty : String :=
  "I apologize, but I had trouble generating a response. Please try again."

/-- The `catch` fallback for any thrown error. -/
def apologyError : String :=
  "I apologize, but I'm experiencing technical difficulties. Please try again in a moment."

/-- The `AISystem.generateResponse`.  The chat-completion provider is the oracle
`complete`: `.error e` models a thrown error (network, auth, quota …),
`.ok c` a response whose `choices[0]?.message?.content` is `c` (`none` for a
missing field). -/
def generateResponse (complete : List Msg → Except String (Option String))
    (b : Business) (query : String) (sessionHistory : List Msg)
    (relevantChunks : List Chunk) : String :=
  match complete (messagesOf b query sessionHistory relevantChunks) with
  | .error _ => apologyError
  | .ok content =>
    match content with
    | some s => if s.isEmpty then apologyEmpty else s
    | none => apologyEmpty

end AISystem

namespace Server

/-! ## Per-file chunk ingestion —
`POST /admin/business/create-and-upload` (src/server.mjs:1202-1265)

The route chunks the processed file content, caps the chunk list at
`MAX_CHUNKS = 30`, and embeds the capped list in batches of `BATCH_SIZE = 5`
(`Promise.allSettled`, so a per-chunk embedding failure is recorded and never
aborts the batch or the file).  Each successful chunk is persisted with its
ordinal `chunkIndex = i + batchIndex`, the position in the capped list.  The
outcome of each chunk's embedding call is the oracle `embedOk`. -/

/-- The batch loop over the capped, enumerated chunk list.  `fuel` bounds the
number of batches; the list length always suffices since every batch consumes
at least one element. -/
def ingestBatchesGo (embedOk : ℕ → Bool) :
    ℕ → List (ℕ × List Char) → List (ℕ × List Char)
  | _, [] => []
  | 0, _ => []
  | fuel + 1, l =>
    (l.take 5).filter (fun pc => embedOk pc.1) ++
      ingestBatchesGo embedOk fuel (l.drop 5)

/-- The persisted `(chunkIndex, chunk)` records of one file's ingestion. -/
def ingestFile (chunks : List (List Char)) (embedOk : ℕ → Bool) :
    List (ℕ × List Char) :=
  ingestBatchesGo embedOk (chunks.take 30).length (chunks.take 30).enum

/-- Ingestion from the processed file content: `FileProcessor.chunkText` at
its default `maxLength = 1000`, `overlap = 200`. -/
def ingestUpload (content : List Char) (embedOk : ℕ → Bool) :
    List (ℕ × List Char) :=
  ingestFile (FileProcessor.chunkText content 1000 200) embedOk

end Server


/-! # Theorems

The embedding above is complete; everything below states and proves
properties of it. -/

namespace FileProcessor

/-! ### Facts about the chunking loop -/

theorem lastIndexOfWithin_le {s needle : List Char} {upTo b : ℕ}
    (h : lastIndexOfWithin s needle upTo = some b) : b ≤ upTo := by
  have hb := List.mem_of_mem_getLast? h
  have := List.mem_of_mem_filter hb
  have := List.mem_range.mp this
  omega

theorem maxOpt_bound {a c : Option ℕ} {k : ℕ}
    (ha : ∀ x, a = some x → x ≤ k) (hc : ∀ x, c = some x → x ≤ k)
    {b : ℕ} (h : maxOpt a c = some b) : b ≤ k := by
  cases a with
  | none =>
    cases c with
    | none => simp [maxOpt] at h
    | some y => simp [maxOpt] at h; exact h ▸ hc y rfl
  | some x =>
    cases c with
    | none => simp [maxOpt] at h; exact h ▸ ha x rfl
    | some y =>
      simp [maxOpt] at h
      have h1 := ha x rfl
      have h2 := hc y rfl
      omega

theorem chunkEnd_le_length (text : List Char) (m start : ℕ) :
    chunkEnd text m start ≤ text.length := by
  unfold chunkEnd
  dsimp only
  split
  · next hlt =>
    split
    · next b heq =>
      have hb : b ≤ min (start + m) text.length :=
        maxOpt_bound
          (fun x hx => maxOpt_bound
            (fun y hy => lastIndexOfWithin_le hy)
            (fun y hy => lastIndexOfWithin_le hy) hx)
          (fun y hy => lastIndexOfWithin_le hy) heq
      split
      · omega
      · omega
    · omega
  · omega

theorem chunkEnd_le_add (text : List Char) (m start : ℕ) :
    chunkEnd text m start ≤ start + m + 1 := by
  unfold chunkEnd
  dsimp only
  split
  · next hlt =>
    split
    · next b heq =>
      have hb : b ≤ min (start + m) text.length :=
        maxOpt_bound
          (fun x hx => maxOpt_bound
            (fun y hy => lastIndexOfWithin_le hy)
            (fun y hy => lastIndexOfWithin_le hy) hx)
          (fun y hy => lastIndexOfWithin_le hy) heq
      split
      · omega
      · omega
    · omega
  · omega

theorem lt_chunkEnd {text : List Char} {m start : ℕ}
    (hm : 1 ≤ m) (hs : start < text.length) : start < chunkEnd text m start := by
  unfold chunkEnd
  dsimp only
  split
  · split
    · next b heq =>
      split
      · omega
      · omega
    · omega
  · omega

/-- The loop of `chunkText` makes strict forward progress in every iteration:
`nextStart = max (start + 1) (end - overlap)` is strictly greater than
`start`, whatever the break-point search produced. -/
theorem chunkNextStart_gt (text : List Char) (m o start : ℕ) :
    start < chunkNextStart text m o start :=
  lt_of_lt_of_le (Nat.lt_succ_self start) (le_max_left _ _)

/-- Because of the strict progress guarantee, the iteration budget is
irrelevant once it is at least `text.length - start`: the modelled loop
computes the same chunk list for any sufficient `gas`. -/
theorem chunkLoop_gas_irrel (text : List Char) (m o : ℕ) :
    ∀ gas gas' start, text.length ≤ gas + start → text.length ≤ gas' + start →
      chunkLoop text m o gas start = chunkLoop text m o gas' start := by
  intro gas
  induction gas with
  | zero =>
    intro gas' start h h'
    cases gas' with
    | zero => rfl
    | succ g =>
      have : ¬ start < text.length := by omega
      simp [chunkLoop, this]
  | succ g ih =>
    intro gas' start h h'
    cases gas' with
    | zero =>
      have : ¬ start < text.length := by omega
      simp [chunkLoop, this]
    | succ g' =>
      by_cases hs : start < text.length
      · have hnext := chunkNextStart_gt text m o start
        simp only [chunkLoop, if_pos hs]
        rw [ih g' (chunkNextStart text m o start) (by omega) (by omega)]
      · simp [chunkLoop, hs]

/-! ### Trim and slice decompositions

`jsTrim l` is the middle of a decomposition `l = pre ++ jsTrim l ++ post`
with all-whitespace `pre` and `post`; consequently a chunk is a contiguous
substring of the original text, and a non-whitespace character survives
trimming at its original position. -/

theorem dropTrail_decomp (p : Char → Bool) (l : List Char) :
    l = dropTrail p l ++ (l.reverse.takeWhile p).reverse ∧
      ∀ c ∈ (l.reverse.takeWhile p).reverse, p c = true := by
  constructor
  · have h := List.takeWhile_append_dropWhile p l.reverse
    have h2 := congrArg List.reverse h
    rw [List.reverse_append, List.reverse_reverse] at h2
    simpa [dropTrail] using h2.symm
  · intro c hc
    exact List.mem_takeWhile_imp (List.mem_reverse.mp hc)

theorem jsTrim_decomp (l : List Char) :
    ∃ pre post, l = pre ++ jsTrim l ++ post ∧
      (∀ c ∈ pre, isJsWs c = true) ∧ (∀ c ∈ post, isJsWs c = true) := by
  obtain ⟨h2, hq⟩ := dropTrail_decomp isJsWs (l.dropWhile isJsWs)
  refine ⟨l.takeWhile isJsWs, ((l.dropWhile isJsWs).reverse.takeWhile isJsWs).reverse,
    ?_, fun c hc => List.mem_takeWhile_imp hc, hq⟩
  calc l = l.takeWhile isJsWs ++ l.dropWhile isJsWs :=
        (List.takeWhile_append_dropWhile _ _).symm
    _ = l.takeWhile isJsWs ++
        (dropTrail isJsWs (l.dropWhile isJsWs) ++
          ((l.dropWhile isJsWs).reverse.takeWhile isJsWs).reverse) := by rw [← h2]
    _ = _ := by rw [jsTrim, List.append_assoc]

theorem jsTrim_length_le (l : List Char) : (jsTrim l).length ≤ l.length := by
  obtain ⟨pre, post, hdec, -, -⟩ := jsTrim_decomp l
  have := congrArg List.length hdec
  simp only [List.length_append] at this
  omega

theorem head_dropWhile_false (p : Char → Bool) :
    ∀ (l : List Char) (c : Char) (t : List Char),
      l.dropWhile p = c :: t → p c = false := by
  intro l
  induction l with
  | nil => intro c t h; simp [List.dropWhile] at h
  | cons a l ih =>
    intro c t h
    rw [List.dropWhile_cons] at h
    split at h
    · exact ih c t h
    · next hpa => cases h; simpa using hpa

theorem jsTrim_head_false {l : List Char} {c : Char} {t : List Char}
    (h : jsTrim l = c :: t) : isJsWs c = false := by
  obtain ⟨h2, -⟩ := dropTrail_decomp isJsWs (l.dropWhile isJsWs)
  rw [jsTrim] at h
  rw [h] at h2
  exact head_dropWhile_false isJsWs l c _ (by simpa using h2)

theorem jsTrim_reverse_head_false {l : List Char} {d : Char} {s : List Char}
    (h : (jsTrim l).reverse = d :: s) : isJsWs d = false := by
  have hr : (jsTrim l).reverse = (l.dropWhile isJsWs).reverse.dropWhile isJsWs := by
    rw [jsTrim, dropTrail, List.reverse_reverse]
  rw [hr] at h
  exact head_dropWhile_false isJsWs _ d s h

theorem jsTrim_idem (l : List Char) : jsTrim (jsTrim l) = jsTrim l := by
  cases hl : jsTrim l with
  | nil => simp [jsTrim, dropTrail, List.dropWhile]
  | cons c t =>
    have hc : isJsWs c = false := jsTrim_head_false hl
    cases hr : (c :: t).reverse with
    | nil => simp at hr
    | cons d s =>
      have hd : isJsWs d = false := jsTrim_reverse_head_false (l := l) (by rw [hl, hr])
      have h1 : (c :: t).dropWhile isJsWs = c :: t := by
        rw [List.dropWhile_cons]; simp [hc]
      rw [jsTrim, h1, dropTrail, hr, List.dropWhile_cons]
      simp only [hd, Bool.false_eq_true, if_false]
      rw [← hr, List.reverse_reverse]

theorem getD_slice {text : List Char} {i j p : ℕ}
    (hip : i ≤ p) (hpj : p < j) (d : Char) :
    (jsSlice text i j).getD (p - i) d = text.getD p d := by
  rw [List.getD_eq_getElem?_getD, List.getD_eq_getElem?_getD, jsSlice,
    List.getElem?_take, if_pos (by omega : p - i < j - i), List.getElem?_drop]
  congr 2
  omega

theorem slice_decomp (text : List Char) {i j : ℕ} {pre mid post : List Char}
    (hij : i ≤ j)
    (hd : jsSlice text i j = pre ++ mid ++ post) :
    mid = jsSlice text (i + pre.length) (i + pre.length + mid.length) := by
  have hdrop : text.drop i = jsSlice text i j ++ text.drop j := by
    conv_lhs => rw [← List.take_append_drop (j - i) (text.drop i)]
    rw [List.drop_drop]
    have hji : i + (j - i) = j := by omega
    rw [hji]
    rfl
  have h2 : text.drop (i + pre.length) = mid ++ (post ++ text.drop j) := by
    rw [← List.drop_drop, hdrop, hd]
    rw [List.append_assoc, List.append_assoc, List.drop_left]
  rw [jsSlice]
  have hml : i + pre.length + mid.length - (i + pre.length) = mid.length := by omega
  rw [hml, h2]
  exact (List.take_left' rfl).symm

theorem nonws_in_mid {text pre mid post : List Char} {i j p : ℕ}
    (hd : jsSlice text i j = pre ++ mid ++ post)
    (hpre : ∀ c ∈ pre, isJsWs c = true) (hpost : ∀ c ∈ post, isJsWs c = true)
    (hip : i ≤ p) (hpj : p < j) (_hjl : j ≤ text.length)
    (hw : isJsWs (text.getD p 'x') = false) :
    i + pre.length ≤ p ∧ p < i + pre.length + mid.length := by
  have hlen : (jsSlice text i j).length = j - i := by
    simp only [jsSlice, List.length_take, List.length_drop]
    omega
  have hg : (jsSlice text i j).getD (p - i) 'x' = text.getD p 'x' :=
    getD_slice hip hpj _
  have hsum : pre.length + mid.length + post.length = j - i := by
    have := congrArg List.length hd
    simp only [List.length_append] at this
    omega
  constructor
  · by_contra hcon
    push_neg at hcon
    have hidx : p - i < pre.length := by omega
    have h1 : (jsSlice text i j).getD (p - i) 'x' = pre.getD (p - i) 'x' := by
      rw [hd, List.getD_eq_getElem?_getD, List.getD_eq_getElem?_getD,
        List.append_assoc, List.getElem?_append_left hidx]
    have hin : pre.getD (p - i) 'x' ∈ pre := by
      rw [List.getD_eq_getElem?_getD, List.getElem?_eq_getElem hidx]
      exact List.getElem_mem hidx
    have h3 : isJsWs (text.getD p 'x') = true := by
      rw [← hg, h1]
      exact hpre _ hin
    rw [h3] at hw
    exact absurd hw (by decide)
  · by_contra hcon
    push_neg at hcon
    have hidx1 : pre.length ≤ p - i := by omega
    have hidx2 : mid.length ≤ p - i - pre.length := by omega
    have hidx3 : p - i - pre.length - mid.length < post.length := by omega
    have h1 : (jsSlice text i j).getD (p - i) 'x' =
        post.getD (p - i - pre.length - mid.length) 'x' := by
      rw [hd, List.getD_eq_getElem?_getD, List.getD_eq_getElem?_getD,
        List.append_assoc, List.getElem?_append_right hidx1,
        List.getElem?_append_right hidx2]
    have hin : post.getD (p - i - pre.length - mid.length) 'x' ∈ post := by
      rw [List.getD_eq_getElem?_getD, List.getElem?_eq_getElem hidx3]
      exact List.getElem_mem hidx3
    have h3 : isJsWs (text.getD p 'x') = true := by
      rw [← hg, h1]
      exact hpost _ hin
    rw [h3] at hw
    exact absurd hw (by decide)

/-- A non-whitespace character inside the window `[start, e)` survives the
trim of that window's slice, at its original position. -/
theorem jsTrim_slice_window {text : List Char} {start e p : ℕ}
    (hse : start ≤ e) (hel : e ≤ text.length) (hsp : start ≤ p) (hpe : p < e)
    (hw : isJsWs (text.getD p 'x') = false) :
    ∃ s, jsTrim (jsSlice text start e) =
        jsSlice text s (s + (jsTrim (jsSlice text start e)).length) ∧
      s ≤ p ∧ p < s + (jsTrim (jsSlice text start e)).length ∧
      s + (jsTrim (jsSlice text start e)).length ≤ text.length := by
  obtain ⟨pre, post, hdec, hp, hq⟩ := jsTrim_decomp (jsSlice text start e)
  have hmid := slice_decomp text hse hdec
  have hb := nonws_in_mid hdec hp hq hsp hpe hel hw
  have hslen : (jsSlice text start e).length = e - start := by
    simp only [jsSlice, List.length_take, List.length_drop]
    omega
  have hsum : pre.length + (jsTrim (jsSlice text start e)).length + post.length
      = e - start := by
    have := congrArg List.length hdec
    simp only [List.length_append] at this
    omega
  exact ⟨start + pre.length, hmid, by omega, by omega, by omega⟩

/-- Every chunk the loop produces is a non-empty, trimmed, contiguous
substring of the text, of length at most `maxLength + 1`. -/
theorem chunkLoop_mem {text : List Char} {m o : ℕ} (hm : 1 ≤ m) :
    ∀ gas start c, c ∈ chunkLoop text m o gas start →
      c ≠ [] ∧ jsTrim c = c ∧ c.length ≤ m + 1 ∧
      ∃ s, c = jsSlice text s (s + c.length) ∧ s + c.length ≤ text.length := by
  intro gas
  induction gas with
  | zero => intro start c hc; simp [chunkLoop] at hc
  | succ g ih =>
    intro start c hc
    by_cases hs : start < text.length
    · simp only [chunkLoop, if_pos hs] at hc
      by_cases hni : jsTrim (jsSlice text start (chunkEnd text m start)) = []
      · rw [if_pos hni] at hc
        exact ih _ c hc
      · rw [if_neg hni] at hc
        rcases List.mem_cons.mp hc with hceq | hctail
        · subst hceq
          have hse : start < chunkEnd text m start := lt_chunkEnd hm hs
          have hel : chunkEnd text m start ≤ text.length :=
            chunkEnd_le_length text m start
          have hea : chunkEnd text m start ≤ start + m + 1 :=
            chunkEnd_le_add text m start
          refine ⟨hni, jsTrim_idem _, ?_, ?_⟩
          · have h1 := jsTrim_length_le (jsSlice text start (chunkEnd text m start))
            have h2 : (jsSlice text start (chunkEnd text m start)).length
                = chunkEnd text m start - start := by
              simp only [jsSlice, List.length_take, List.length_drop]
              omega
            omega
          · obtain ⟨pre, post, hdec, hp, hq⟩ :=
              jsTrim_decomp (jsSlice text start (chunkEnd text m start))
            have hmid := slice_decomp text (le_of_lt hse) hdec
            have hslen : (jsSlice text start (chunkEnd text m start)).length
                = chunkEnd text m start - start := by
              simp only [jsSlice, List.length_take, List.length_drop]
              omega
            have hsum := congrArg List.length hdec
            simp only [List.length_append] at hsum
            exact ⟨start + pre.length, hmid, by omega⟩
        · exact ih _ c hctail
    · simp [chunkLoop, hs] at hc

/-- Every position of a non-whitespace character of the text is covered, in
place, by some chunk the loop produces from a sufficient iteration budget. -/
theorem chunkLoop_covers {text : List Char} {m o : ℕ} (hm : 1 ≤ m) :
    ∀ gas start p, start ≤ p → p < text.length → text.length ≤ gas + start →
      isJsWs (text.getD p 'x') = false →
      ∃ c ∈ chunkLoop text m o gas start, ∃ s,
        c = jsSlice text s (s + c.length) ∧ s ≤ p ∧ p < s + c.length := by
  intro gas
  induction gas with
  | zero => intro start p h1 h2 h3 _; omega
  | succ g ih =>
    intro start p hsp hpl hgas hw
    have hs : start < text.length := lt_of_le_of_lt hsp hpl
    have hse : start < chunkEnd text m start := lt_chunkEnd hm hs
    have hel : chunkEnd text m start ≤ text.length := chunkEnd_le_length text m start
    by_cases hpe : p < chunkEnd text m start
    · obtain ⟨s, hcs, hsp2, hps2, hbound⟩ :=
        jsTrim_slice_window (le_of_lt hse) hel hsp hpe hw
      have hne : jsTrim (jsSlice text start (chunkEnd text m start)) ≠ [] := by
        intro h0
        rw [h0] at hps2
        simp only [List.length_nil, Nat.add_zero] at hps2
        omega
      refine ⟨jsTrim (jsSlice text start (chunkEnd text m start)), ?_, s,
        hcs, hsp2, hps2⟩
      simp only [chunkLoop, if_pos hs, if_neg hne]
      exact List.mem_cons_self _ _
    · push_neg at hpe
      have hnle : chunkNextStart text m o start ≤ p := by
        have h1 : chunkNextStart text m o start ≤ chunkEnd text m start :=
          max_le (by omega) (by omega)
        omega
      have hgas2 : text.length ≤ g + chunkNextStart text m o start := by
        have := chunkNextStart_gt text m o start
        omega
      obtain ⟨c, hc, s, hprop⟩ := ih (chunkNextStart text m o start) p hnle hpl hgas2 hw
      refine ⟨c, ?_, s, hprop⟩
      simp only [chunkLoop, if_pos hs]
      split
      · exact hc
      · exact List.mem_cons_of_mem _ hc

/-- Every chunk of `chunkText` (the trimmed loop path as well as the verbatim
short path) is a non-empty contiguous substring of length at most
`maxLength + 1`; chunks from the loop path are additionally trimmed. -/
theorem chunkText_shape (text : List Char) (m o : ℕ) (hm : 1 ≤ m) :
    ∀ c ∈ chunkText text m o,
      c ≠ [] ∧ c.length ≤ m + 1 ∧
      (∃ s, c = jsSlice text s (s + c.length) ∧ s + c.length ≤ text.length) ∧
      (m < text.length → jsTrim c = c) := by
  intro c hc
  unfold chunkText at hc
  by_cases h0 : text = []
  · simp [h0] at hc
  · rw [if_neg h0] at hc
    by_cases h1 : text.length ≤ m
    · rw [if_pos h1] at hc
      simp only [List.mem_singleton] at hc
      subst hc
      refine ⟨h0, by omega, ⟨0, ?_, by omega⟩, fun hlt => absurd hlt (by omega)⟩
      simp [jsSlice]
    · rw [if_neg h1] at hc
      obtain ⟨h2, h3, h4, h5⟩ := chunkLoop_mem hm _ _ c hc
      exact ⟨h2, h4, h5, fun _ => h3⟩

end FileProcessor

namespace Server

/-- With enough fuel (one unit per batch element suffices), the batch loop
persists exactly the chunks whose embedding succeeded, in order. -/
theorem ingestBatchesGo_eq_filter (embedOk : ℕ → Bool) :
    ∀ fuel l, l.length ≤ fuel →
      ingestBatchesGo embedOk fuel l = l.filter (fun pc => embedOk pc.1) := by
  intro fuel
  induction fuel with
  | zero =>
    intro l h
    have : l = [] := List.eq_nil_of_length_eq_zero (by omega)
    subst this
    rfl
  | succ f ih =>
    intro l h
    cases l with
    | nil => rfl
    | cons x xs =>
      show (((x :: xs).take 5).filter _) ++ _ = _
      rw [ih ((x :: xs).drop 5) (by simp only [List.length_drop, List.length_cons] at h ⊢; omega)]
      rw [← List.filter_append, List.take_append_drop]

theorem ingestFile_eq_filter (chunks : List (List Char)) (embedOk : ℕ → Bool) :
    ingestFile chunks embedOk =
      (chunks.take 30).enum.filter (fun pc => embedOk pc.1) := by
  unfold ingestFile
  exact ingestBatchesGo_eq_filter embedOk _ _ (by simp [List.enum_length])

end Server

/-! ## Claim theorems -/

/-- C5: `chunkText` always terminates: for every text, `maxLength ≥ 1` and
`overlap ≥ 0`, in every iteration of the chunking loop the next window start
`max (start + 1) (end - overlap)` is strictly greater than the current
start, regardless of the result of the break-point search. -/
theorem claim_C5_chunk_progress (text : List Char) (maxLength overlap start : ℕ)
    (_hm : 1 ≤ maxLength) :
    start < FileProcessor.chunkNextStart text maxLength overlap start :=
  FileProcessor.chunkNextStart_gt text maxLength overlap start

theorem claim_C5_chunk_progress_witness :
    1 ≤ 3 ∧ 4 < FileProcessor.chunkNextStart "ab \ncd".toList 3 0 4 :=
  ⟨by decide, claim_C5_chunk_progress "ab \ncd".toList 3 0 4 (by decide)⟩

/-- C9: `generateResponse` never propagates an error: when the chat
completion throws it returns the fixed technical-difficulties apology, and in
every case its result is the completion content (when present and non-empty)
or one of the two fixed apology strings. -/
theorem claim_C9_generate_response_total
    (complete : List AISystem.Msg → Except String (Option String))
    (b : AISystem.Business) (query : String) (hist : List AISystem.Msg)
    (chunks : List AISystem.Chunk) :
    (∀ e, complete (AISystem.messagesOf b query hist chunks) = .error e →
      AISystem.generateResponse complete b query hist chunks =
        AISystem.apologyError) ∧
    (AISystem.generateResponse complete b query hist chunks =
        AISystem.apologyError ∨
      AISystem.generateResponse complete b query hist chunks =
        AISystem.apologyEmpty ∨
      ∃ s, complete (AISystem.messagesOf b query hist chunks) = .ok (some s) ∧
        s.isEmpty = false ∧
        AISystem.generateResponse complete b query hist chunks = s) := by
  unfold AISystem.generateResponse
  constructor
  · intro e he
    rw [he]
  · cases hres : complete (AISystem.messagesOf b query hist chunks) with
    | error e => exact Or.inl rfl
    | ok content =>
      cases content with
      | none => exact Or.inr (Or.inl rfl)
      | some s =>
        by_cases hs : s.isEmpty
        · exact Or.inr (Or.inl (by simp [hs]))
        · exact Or.inr (Or.inr ⟨s, rfl, by simpa using hs, by simp [hs]⟩)

theorem claim_C9_generate_response_total_witness :
    AISystem.generateResponse (fun _ => Except.error "ECONNRESET")
      ⟨"Acme", none, none, none, none, none, none, none⟩ "hi" [] [] =
      AISystem.apologyError :=
  (claim_C9_generate_response_total (fun _ => Except.error "ECONNRESET")
    ⟨"Acme", none, none, none, none, none, none, none⟩ "hi" [] []).1
    "ECONNRESET" rfl

/-- Sums of coordinatewise self-products are non-negative. -/
theorem sum_zipWith_self_nonneg (a : List ℝ) : 0 ≤ (a.zipWith (· * ·) a).sum := by
  induction a with
  | nil => simp
  | cons x xs ih =>
    simp only [List.zipWith, List.sum_cons]
    exact add_nonneg (mul_self_nonneg x) ih

/-- Coordinatewise products commute. -/
theorem zipWith_mul_comm (a b : List ℝ) :
    a.zipWith (· * ·) b = b.zipWith (· * ·) a := by
  induction a generalizing b with
  | nil => cases b <;> rfl
  | cons x xs ih =>
    cases b with
    | nil => rfl
    | cons y ys => simp [List.zipWith, mul_comm, ih]

/-- C7 (amended): at most 30 chunks of one uploaded file are embedded and
persisted; a per-chunk embedding failure never aborts the batch or the file
(every successfully embedded capped chunk is persisted, whatever happened to
its neighbours); the ordinals are assigned contiguously from 0 over the
capped chunk list in production order, and the persisted ordinals are
contiguous from 0 whenever every embedding succeeds. -/
theorem claim_C7_ingestion_cap (chunks : List (List Char)) (embedOk : ℕ → Bool) :
    (Server.ingestFile chunks embedOk).length ≤ 30 ∧
    (∀ i c, (i, c) ∈ (chunks.take 30).enum → embedOk i = true →
      (i, c) ∈ Server.ingestFile chunks embedOk) ∧
    ((∀ i, i < (chunks.take 30).length → embedOk i = true) →
      (Server.ingestFile chunks embedOk).map Prod.fst =
        List.range (chunks.take 30).length) := by
  have heq := Server.ingestFile_eq_filter chunks embedOk
  refine ⟨?_, ?_, ?_⟩
  · rw [heq]
    have h1 := List.length_filter_le (fun pc => embedOk pc.1) (chunks.take 30).enum
    have h2 : (chunks.take 30).enum.length = (chunks.take 30).length :=
      List.enum_length
    have h3 : (chunks.take 30).length ≤ 30 := by
      rw [List.length_take]
      exact min_le_left _ _
    omega
  · intro i c hm hok
    rw [heq]
    exact List.mem_filter.mpr ⟨hm, hok⟩
  · intro hall
    rw [heq]
    have hself : (chunks.take 30).enum.filter (fun pc => embedOk pc.1) =
        (chunks.take 30).enum := by
      apply List.filter_eq_self.mpr
      intro pc hpc
      obtain ⟨i, c⟩ := pc
      exact hall i (List.mem_enum hpc).1
    rw [hself, List.enum_map_fst]

theorem claim_C7_ingestion_cap_witness :
    (Server.ingestFile ["a".toList, "b".toList] (fun _ => true)).map Prod.fst =
      List.range 2 := by
  have h := (claim_C7_ingestion_cap ["a".toList, "b".toList] (fun _ => true)).2.2
    (fun _ _ => rfl)
  simpa using h

/-- C7 counterexample: when the embedding of chunk 0 fails and chunk 1
succeeds, the persisted ordinals are `[1]` — not contiguous from 0. -/
theorem claim_C7_counterexample :
    (Server.ingestFile ["a".toList, "b".toList]
      (fun i => decide (i ≠ 0))).map Prod.fst = [1] ∧
    (Server.ingestFile ["a".toList, "b".toList]
      (fun i => decide (i ≠ 0))).map Prod.fst ≠
      List.range (Server.ingestFile ["a".toList, "b".toList]
        (fun i => decide (i ≠ 0))).length := by
  decide

/-- C8 counterexample: the claim quantifies over every vector, but for the
zero vector the similarity with itself is 0, not 1 within epsilon. -/
theorem claim_C8_counterexample :
    AISystem.calculateCosineSimilarity [(0 : ℝ)] [(0 : ℝ)] = 0 ∧
    (1 / 2 : ℝ) < |AISystem.calculateCosineSimilarity [(0 : ℝ)] [(0 : ℝ)] - 1| := by
  have h : AISystem.calculateCosineSimilarity [(0 : ℝ)] [(0 : ℝ)] = 0 := by
    unfold AISystem.calculateCosineSimilarity
    simp [List.zipWith]
  refine ⟨h, ?_⟩
  rw [h]
  norm_num

/-- C8 (amended): for every vector whose self dot product is at least 1 the
cosine similarity with itself is 1 within `1e-8` (for the zero vector it is 0
instead — see the counterexample); similarity is symmetric on equal-length
vectors; and the `1e-8` epsilon keeps the denominator strictly positive, so
the zero vector causes no division by zero. -/
theorem claim_C8_cosine (a b : List ℝ) :
    (1 ≤ (a.zipWith (· * ·) a).sum →
      |AISystem.calculateCosineSimilarity a a - 1| ≤ 1 / 10 ^ 8) ∧
    (a.length = b.length →
      AISystem.calculateCosineSimilarity a b =
        AISystem.calculateCosineSimilarity b a) ∧
    0 < Real.sqrt (a.zipWith (· * ·) a).sum *
        Real.sqrt ((b.take a.length).zipWith (· * ·) (b.take a.length)).sum +
        1 / 10 ^ 8 := by
  refine ⟨?_, ?_, ?_⟩
  · intro hS
    have hS0 : 0 ≤ (a.zipWith (· * ·) a).sum := sum_zipWith_self_nonneg a
    unfold AISystem.calculateCosineSimilarity
    rw [List.take_length, Real.mul_self_sqrt hS0]
    set S := (a.zipWith (· * ·) a).sum with hSdef
    have heps : (0 : ℝ) < 1 / 10 ^ 8 := by norm_num
    have hpos : (0 : ℝ) < S + 1 / 10 ^ 8 := by linarith
    have hrw : S / (S + 1 / 10 ^ 8) - 1 = -((1 / 10 ^ 8) / (S + 1 / 10 ^ 8)) := by
      field_simp
    rw [hrw, abs_neg, abs_of_nonneg (by positivity)]
    have h1 : (1 : ℝ) ≤ S + 1 / 10 ^ 8 := by linarith
    exact div_le_self (by norm_num) h1
  · intro hlen
    unfold AISystem.calculateCosineSimilarity
    have h1 : b.take a.length = b := by rw [hlen, List.take_length]
    have h2 : a.take b.length = a := by rw [← hlen, List.take_length]
    rw [zipWith_mul_comm a b, h1, h2,
      mul_comm (Real.sqrt (List.zipWith (· * ·) a a).sum)
        (Real.sqrt (List.zipWith (· * ·) b b).sum)]
  · positivity

theorem claim_C8_cosine_witness :
    |AISystem.calculateCosineSimilarity [(1 : ℝ)] [(1 : ℝ)] - 1| ≤ 1 / 10 ^ 8 ∧
    AISystem.calculateCosineSimilarity [(1 : ℝ), 2] [(3 : ℝ), 4] =
      AISystem.calculateCosineSimilarity [(3 : ℝ), 4] [(1 : ℝ), 2] :=
  ⟨(claim_C8_cosine [1] [1]).1 (by norm_num [List.zipWith]),
   (claim_C8_cosine [1, 2] [3, 4]).2.1 rfl⟩

/-- C10 counterexample: a text that already fits in one chunk is returned
verbatim, so the returned chunk need not be whitespace-trimmed. -/
theorem claim_C10_counterexample :
    FileProcessor.chunkText " a".toList 5 0 = [[' ', 'a']] ∧
    jsTrim [' ', 'a'] ≠ [' ', 'a'] := by
  decide

/-- C10 (amended): every chunk of `chunkText` with `maxLength ≥ 1` is a
non-empty contiguous substring of the input of length at most
`maxLength + 1`; when the text is longer than `maxLength` (the loop path)
each chunk is additionally whitespace-trimmed, while a short text is returned
verbatim (possibly untrimmed — see the counterexample). -/
theorem claim_C10_chunk_shape (text : List Char) (m o : ℕ) (hm : 1 ≤ m) :
    ∀ c ∈ FileProcessor.chunkText text m o,
      c ≠ [] ∧ c.length ≤ m + 1 ∧
      (∃ s, c = jsSlice text s (s + c.length) ∧ s + c.length ≤ text.length) ∧
      (m < text.length → jsTrim c = c) :=
  FileProcessor.chunkText_shape text m o hm

theorem claim_C10_chunk_shape_witness :
    1 ≤ 3 ∧ ∀ c ∈ FileProcessor.chunkText "ab \ncd".toList 3 0,
      c ≠ [] ∧ c.length ≤ 3 + 1 ∧
      (∃ s, c = jsSlice "ab \ncd".toList s (s + c.length) ∧
        s + c.length ≤ "ab \ncd".toList.length) ∧
      (3 < "ab \ncd".toList.length → jsTrim c = c) :=
  ⟨by decide, claim_C10_chunk_shape "ab \ncd".toList 3 0 (by decide)⟩

/-- C4 counterexample: whitespace between chunk windows is trimmed away, so
the character position of the `'\n'` at index 3 is included in no returned
chunk; full positional coverage fails as stated. -/
theorem claim_C4_counterexample :
    FileProcessor.chunkText "ab \ncd".toList 3 0 = [['a', 'b'], ['c', 'd']] ∧
    "ab \ncd".toList.getD 3 'x' = '\n' ∧
    '\n' ∉ ['a', 'b'] ∧ '\n' ∉ ['c', 'd'] := by
  decide

/-- C4 (amended): `chunkText` returns `[]` for empty input and `[text]` when
the text fits in one chunk; for `maxLength ≥ 1`, every position of a
*non-whitespace* character of the input is included, at its place, in at
least one returned chunk (whitespace at window edges can be trimmed away —
see the counterexample). -/
theorem claim_C4_chunk_coverage (text : List Char) (m o : ℕ) (hm : 1 ≤ m) :
    (text = [] → FileProcessor.chunkText text m o = []) ∧
    (text ≠ [] → text.length ≤ m → FileProcessor.chunkText text m o = [text]) ∧
    (∀ p, p < text.length → isJsWs (text.getD p 'x') = false →
      ∃ c ∈ FileProcessor.chunkText text m o, ∃ s,
        c = jsSlice text s (s + c.length) ∧ s ≤ p ∧ p < s + c.length) := by
  refine ⟨?_, ?_, ?_⟩
  · intro h
    simp [FileProcessor.chunkText, h]
  · intro h1 h2
    simp [FileProcessor.chunkText, h1, h2]
  · intro p hp hw
    by_cases h0 : text = []
    · subst h0
      simp at hp
    · by_cases h1 : text.length ≤ m
      · refine ⟨text, ?_, 0, ?_, by omega, by omega⟩
        · simp [FileProcessor.chunkText, h0, h1]
        · simp [jsSlice]
      · obtain ⟨c, hc, s, hprop⟩ :=
          FileProcessor.chunkLoop_covers hm text.length 0 p (by omega) hp
            (by omega) hw
        refine ⟨c, ?_, s, hprop⟩
        simpa [FileProcessor.chunkText, h0, h1] using hc

theorem claim_C4_chunk_coverage_witness :
    1 ≤ 3 ∧
    (("ab \ncd".toList : List Char) = [] →
      FileProcessor.chunkText "ab \ncd".toList 3 0 = []) ∧
    (("ab \ncd".toList : List Char) ≠ [] → "ab \ncd".toList.length ≤ 3 →
      FileProcessor.chunkText "ab \ncd".toList 3 0 = ["ab \ncd".toList]) ∧
    (∀ p, p < "ab \ncd".toList.length →
      isJsWs ("ab \ncd".toList.getD p 'x') = false →
      ∃ c ∈ FileProcessor.chunkText "ab \ncd".toList 3 0, ∃ s,
        c = jsSlice "ab \ncd".toList s (s + c.length) ∧ s ≤ p ∧
          p < s + c.length) :=
  ⟨by decide, claim_C4_chunk_coverage "ab \ncd".toList 3 0 (by decide)⟩

namespace FileProcessor

/-! ### Contact-card structure -/

theorem filterMap_id_sandwich (x y : List Char) (l : List (Option (List Char))) :
    (some x :: (l ++ [some y])).filterMap id = x :: (l.filterMap id ++ [y]) := by
  simp [List.filterMap_append]

theorem renderCardLines_eq (info : ContactInfo) :
    renderCardLines info =
      ("=== CONTACT_CARD ===").toList ::
        (cardMid info ++ [("=== END_CONTACT_CARD ===").toList]) := by
  unfold renderCardLines cardMid
  exact filterMap_id_sandwich ("=== CONTACT_CARD ===").toList
    ("=== END_CONTACT_CARD ===").toList
    [(if info.phones.isEmpty then none
      else some (("Phone: ").toList ++ List.intercalate (" , ").toList info.phones)),
     lineIf "WhatsApp: " info.whatsapp,
     lineIf "Email: " info.email,
     lineIf "Address: " info.address,
     lineIf "Website: " info.website,
     lineIf "Hours:\n" info.hours]

theorem head_ne_eq {x : List Char} {c : Char} (h : x.head? = some c)
    (hc : c ≠ '=') : x.head? ≠ some '=' := by
  rw [h]
  intro h2
  exact hc (Option.some.inj h2)

/-- Every field line of the card starts with its label, never with `'='`. -/
theorem cardMid_head (info : ContactInfo) :
    ∀ x ∈ cardMid info, x.head? ≠ some '=' := by
  obtain ⟨phones, wa, em, ad, web, hrs⟩ := info
  intro x hx
  unfold cardMid at hx
  rw [List.mem_filterMap] at hx
  obtain ⟨a, ha, hax⟩ := hx
  simp only [id_eq] at hax
  subst hax
  simp only [List.mem_cons, List.not_mem_nil, or_false] at ha
  rcases ha with h | h | h | h | h | h
  · split_ifs at h with hp
    rw [Option.some.inj h]
    exact head_ne_eq rfl (by decide)
  · cases wa with
    | none => simp [lineIf] at h
    | some v =>
      simp only [lineIf] at h
      split_ifs at h with hv
      rw [Option.some.inj h]
      exact head_ne_eq rfl (by decide)
  · cases em with
    | none => simp [lineIf] at h
    | some v =>
      simp only [lineIf] at h
      split_ifs at h with hv
      rw [Option.some.inj h]
      exact head_ne_eq rfl (by decide)
  · cases ad with
    | none => simp [lineIf] at h
    | some v =>
      simp only [lineIf] at h
      split_ifs at h with hv
      rw [Option.some.inj h]
      exact head_ne_eq rfl (by decide)
  · cases web with
    | none => simp [lineIf] at h
    | some v =>
      simp only [lineIf] at h
      split_ifs at h with hv
      rw [Option.some.inj h]
      exact head_ne_eq rfl (by decide)
  · cases hrs with
    | none => simp [lineIf] at h
    | some v =>
      simp only [lineIf] at h
      split_ifs at h with hv
      rw [Option.some.inj h]
      exact head_ne_eq rfl (by decide)

theorem sentinel_not_mem_cardMid (info : ContactInfo) :
    ("=== CONTACT_CARD ===").toList ∉ cardMid info ∧
    ("=== END_CONTACT_CARD ===").toList ∉ cardMid info := by
  constructor
  · intro hmem
    exact cardMid_head info _ hmem rfl
  · intro hmem
    exact cardMid_head info _ hmem rfl

theorem mem_renderCardLines_of_mid {info : ContactInfo} {x : List Char}
    (h : x ∈ cardMid info) : x ∈ renderCardLines info := by
  rw [renderCardLines_eq]
  exact List.mem_cons_of_mem _ (List.mem_append_left _ h)

end FileProcessor

/-- C2: if `extractContactInfo` finds no contact field, `appendContactCard`
returns its input unchanged; otherwise the output is exactly one well-formed
`=== CONTACT_CARD === … === END_CONTACT_CARD ===` block followed by two
newlines and the original input (prepended, not appended), the sentinel lines
occurring exactly once in the card, with each present (truthy) field on its
own labelled line. -/
theorem claim_C2_contact_card (text : List Char) :
    (FileProcessor.extractContactInfo text = none →
      FileProcessor.appendContactCard text = text) ∧
    (∀ info, FileProcessor.extractContactInfo text = some info →
      FileProcessor.appendContactCard text =
        List.intercalate ['\n'] (FileProcessor.renderCardLines info) ++
          ('\n' :: '\n' :: text) ∧
      (FileProcessor.renderCardLines info).head? =
        some ("=== CONTACT_CARD ===").toList ∧
      (FileProcessor.renderCardLines info).getLast? =
        some ("=== END_CONTACT_CARD ===").toList ∧
      (FileProcessor.renderCardLines info).count
        ("=== CONTACT_CARD ===").toList = 1 ∧
      (FileProcessor.renderCardLines info).count
        ("=== END_CONTACT_CARD ===").toList = 1 ∧
      (info.phones ≠ [] →
        ("Phone: ").toList ++ List.intercalate (" , ").toList info.phones ∈
          FileProcessor.renderCardLines info) ∧
      (∀ v, info.whatsapp = some v → v ≠ [] →
        ("WhatsApp: ").toList ++ v ∈ FileProcessor.renderCardLines info) ∧
      (∀ v, info.email = some v → v ≠ [] →
        ("Email: ").toList ++ v ∈ FileProcessor.renderCardLines info) ∧
      (∀ v, info.address = some v → v ≠ [] →
        ("Address: ").toList ++ v ∈ FileProcessor.renderCardLines info) ∧
      (∀ v, info.website = some v → v ≠ [] →
        ("Website: ").toList ++ v ∈ FileProcessor.renderCardLines info) ∧
      (∀ v, info.hours = some v → v ≠ [] →
        ("Hours:\n").toList ++ v ∈ FileProcessor.renderCardLines info)) := by
  constructor
  · intro h
    unfold FileProcessor.appendContactCard
    rw [h]
  · intro info h
    refine ⟨?_, ?_, ?_, ?_, ?_, ?_, ?_, ?_, ?_, ?_, ?_⟩
    · unfold FileProcessor.appendContactCard
      rw [h]
    · rw [FileProcessor.renderCardLines_eq]
      rfl
    · rw [FileProcessor.renderCardLines_eq, ← List.cons_append,
        List.getLast?_concat]
    · rw [FileProcessor.renderCardLines_eq]
      rw [List.count_cons_self, List.count_append]
      rw [List.count_eq_zero.mpr (FileProcessor.sentinel_not_mem_cardMid info).1]
      have h0 : List.count ("=== CONTACT_CARD ===").toList
          [("=== END_CONTACT_CARD ===").toList] = 0 := by decide
      omega
    · rw [FileProcessor.renderCardLines_eq]
      rw [List.count_cons, List.count_append]
      rw [List.count_eq_zero.mpr (FileProcessor.sentinel_not_mem_cardMid info).2]
      have h1 : List.count ("=== END_CONTACT_CARD ===").toList
          [("=== END_CONTACT_CARD ===").toList] = 1 := by decide
      have h2 : (("=== END_CONTACT_CARD ===").toList ==
          ("=== CONTACT_CARD ===").toList) = false := by decide
      simp [h1, h2]
    · intro hp
      apply FileProcessor.mem_renderCardLines_of_mid
      unfold FileProcessor.cardMid
      rw [List.mem_filterMap]
      refine ⟨some (("Phone: ").toList ++
        List.intercalate (" , ").toList info.phones), ?_, rfl⟩
      have : info.phones.isEmpty = false := by
        cases hps : info.phones with
        | nil => exact absurd hps hp
        | cons a l => rfl
      simp [this]
    · intro v hv hne
      apply FileProcessor.mem_renderCardLines_of_mid
      unfold FileProcessor.cardMid
      rw [List.mem_filterMap]
      refine ⟨some (("WhatsApp: ").toList ++ v), ?_, rfl⟩
      have hvi : v.isEmpty = false := by
        cases v with
        | nil => exact absurd rfl hne
        | cons a l => rfl
      simp [FileProcessor.lineIf, hv, hvi]
    · intro v hv hne
      apply FileProcessor.mem_renderCardLines_of_mid
      unfold FileProcessor.cardMid
      rw [List.mem_filterMap]
      refine ⟨some (("Email: ").toList ++ v), ?_, rfl⟩
      have hvi : v.isEmpty = false := by
        cases v with
        | nil => exact absurd rfl hne
        | cons a l => rfl
      simp [FileProcessor.lineIf, hv, hvi]
    · intro v hv hne
      apply FileProcessor.mem_renderCardLines_of_mid
      unfold FileProcessor.cardMid
      rw [List.mem_filterMap]
      refine ⟨some (("Address: ").toList ++ v), ?_, rfl⟩
      have hvi : v.isEmpty = false := by
        cases v with
        | nil => exact absurd rfl hne
        | cons a l => rfl
      simp [FileProcessor.lineIf, hv, hvi]
    · intro v hv hne
      apply FileProcessor.mem_renderCardLines_of_mid
      unfold FileProcessor.cardMid
      rw [List.mem_filterMap]
      refine ⟨some (("Website: ").toList ++ v), ?_, rfl⟩
      have hvi : v.isEmpty = false := by
        cases v with
        | nil => exact absurd rfl hne
        | cons a l => rfl
      simp [FileProcessor.lineIf, hv, hvi]
    · intro v hv hne
      apply FileProcessor.mem_renderCardLines_of_mid
      unfold FileProcessor.cardMid
      rw [List.mem_filterMap]
      refine ⟨some (("Hours:\n").toList ++ v), ?_, rfl⟩
      have hvi : v.isEmpty = false := by
        cases v with
        | nil => exact absurd rfl hne
        | cons a l => rfl
      simp [FileProcessor.lineIf, hv, hvi]

theorem claim_C2_contact_card_witness :
    FileProcessor.extractContactInfo ("no contact info at all").toList = none ∧
    FileProcessor.appendContactCard ("no contact info at all").toList =
      ("no contact info at all").toList :=
  ⟨by decide,
   (claim_C2_contact_card ("no contact info at all").toList).1 (by decide)⟩

namespace FileProcessor

/-! ### Phone acceptance -/

theorem uniqueGo_subset :
    ∀ (l seen : List (List Char)) (x : List Char), x ∈ uniqueGo l seen → x ∈ l := by
  intro l
  induction l with
  | nil => intro seen x hx; simp [uniqueGo] at hx
  | cons a t ih =>
    intro seen x hx
    unfold uniqueGo at hx
    split_ifs at hx with hmem
    · exact List.mem_cons_of_mem _ (ih seen x hx)
    · rcases List.mem_cons.mp hx with h | h
      · exact h ▸ List.mem_cons_self _ _
      · exact List.mem_cons_of_mem _ (ih (a :: seen) x h)

theorem unique_subset {l : List (List Char)} {x : List Char}
    (hx : x ∈ unique l) : x ∈ l :=
  List.mem_of_mem_filter (uniqueGo_subset _ [] x hx)

/-- A raw match is kept by `extractPhonesFrom` only when its normalized form
has at least ten digits. -/
theorem extractPhonesFrom_accept {src x : List Char}
    (hx : x ∈ extractPhonesFrom src) :
    10 ≤ (normalizePhone x).countP isDigit := by
  have h1 := unique_subset hx
  have h2 := (List.mem_filter.mp h1).2
  exact of_decide_eq_true h2

theorem foldPhoneLabels_accept
    (entries : List (Option (List Char) × Bool)) :
    ∀ acc : List (List Char) × Option (List Char),
      (∀ x ∈ acc.1, 10 ≤ (normalizePhone x).countP isDigit) →
      ∀ x ∈ (entries.foldl phoneLabelStep acc).1,
        10 ≤ (normalizePhone x).countP isDigit := by
  induction entries with
  | nil => intro acc hacc x hx; exact hacc x hx
  | cons e rest ih =>
    intro acc hacc x hx
    obtain ⟨eo, eb⟩ := e
    refine ih (phoneLabelStep acc (eo, eb)) ?_ x hx
    intro y hy
    cases eo with
    | none => exact hacc y hy
    | some m =>
      unfold phoneLabelStep at hy
      rcases List.mem_append.mp hy with hc | hc
      · exact hacc y hc
      · exact extractPhonesFrom_accept hc

/-- Every phone value `extractContactInfo` returns satisfies the
ten-digit-after-normalization acceptance test. -/
theorem phonesPool_accept (text block : List Char) :
    ∀ x ∈ phonesPool text block, 10 ≤ (normalizePhone x).countP isDigit := by
  intro x hx
  unfold phonesPool at hx
  split at hx
  · split at hx
    · exact extractPhonesFrom_accept hx
    · exact extractPhonesFrom_accept hx
  · have hx2 : x ∈ ([(labelSearch block ["Phone", "/", "WhatsApp", ":"] true, true),
        (labelSearch block ["Phone", "&", "WhatsApp", ":"] true, true),
        (labelSearch block ["WhatsApp", ":"] true, true),
        (labelSearch block ["Phone", ":"] true, false),
        (telSearch block, false)].foldl phoneLabelStep ([], none)).1 := hx
    exact foldPhoneLabels_accept _ ([], none)
      (by intro y hy; simp at hy) x hx2

theorem extractContactInfo_phones_accept {text : List Char}
    {info : ContactInfo} (h : extractContactInfo text = some info) :
    ∀ ph ∈ info.phones, 10 ≤ (normalizePhone ph).countP isDigit := by
  intro ph hph
  unfold extractContactInfo at h
  dsimp only at h
  split at h
  · exact absurd h (by simp)
  · have hinj := Option.some.inj h
    rw [← hinj] at hph
    exact phonesPool_accept text (contactBlockOf text) ph (unique_subset hph)

end FileProcessor

/-- C3 counterexample: for the spec's own example the returned phone value is
the raw matched string `"+91-98765-43210"`, not the normalized
`"+919876543210"` (the source pushes `raw`, using the normalized form only
for the acceptance test). -/
theorem claim_C3_counterexample :
    (FileProcessor.extractContactInfo ("CONTACT\nPhone: +91-98765-43210").toList).map
      FileProcessor.ContactInfo.phones = some [("+91-98765-43210").toList] ∧
    ("+919876543210").toList ∉ [("+91-98765-43210").toList] := by
  constructor
  · decide
  · decide

/-- C3 (amended): for the spec's example, `extractContactInfo` returns the
raw matched `"+91-98765-43210"` (the phone list is *not* normalized);
`normalizePhone` itself strips all non-digit/non-leading-plus characters and
collapses leading zeros into a leading `+` (e.g. it maps the example to
`"+919876543210"`), and it is used only as an acceptance test: a number is
returned only if it has at least 10 digits after normalization. -/
theorem claim_C3_phone_normalization :
    (∀ text info, FileProcessor.extractContactInfo text = some info →
      ∀ ph ∈ info.phones,
        10 ≤ (FileProcessor.normalizePhone ph).countP FileProcessor.isDigit) ∧
    FileProcessor.normalizePhone ("+91-98765-43210").toList =
      ("+919876543210").toList ∧
    FileProcessor.normalizePhone ("0098765432101").toList =
      ("+98765432101").toList ∧
    (FileProcessor.extractContactInfo ("CONTACT\nPhone: +91-98765-43210").toList).map
      FileProcessor.ContactInfo.phones = some [("+91-98765-43210").toList] := by
  refine ⟨?_, by decide, by decide, by decide⟩
  intro text info h
  exact FileProcessor.extractContactInfo_phones_accept h

theorem claim_C3_phone_normalization_witness :
    ∀ ph ∈ [("+91-98765-43210").toList],
      10 ≤ (FileProcessor.normalizePhone ph).countP FileProcessor.isDigit := by
  intro ph hph
  refine claim_C3_phone_normalization.1
    ("CONTACT\nPhone: +91-98765-43210").toList
    ⟨[("+91-98765-43210").toList], none, none, none, none, none⟩
    (by decide) ph ?_
  exact hph

namespace FileProcessor

/-! ### Categorizer facts -/

theorem le_foldr_max : ∀ (l : List ℚ) (x : ℚ), x ∈ l → x ≤ l.foldr max 0 := by
  intro l
  induction l with
  | nil => intro x hx; simp at hx
  | cons a t ih =>
    intro x hx
    rcases List.mem_cons.mp hx with h | h
    · subst h
      exact le_max_left _ _
    · exact le_trans (ih x h) (le_max_right _ _)

theorem foldr_max_mem : ∀ l : List ℚ, l.foldr max 0 = 0 ∨ l.foldr max 0 ∈ l := by
  intro l
  induction l with
  | nil => left; rfl
  | cons a t ih =>
    by_cases h : t.foldr max 0 ≤ a
    · right
      simp only [List.foldr_cons]
      rw [max_eq_left h]
      exact List.mem_cons_self _ _
    · push_neg at h
      rcases ih with h0 | hmem
      · left
        simp only [List.foldr_cons]
        rw [h0] at h ⊢
        rw [max_eq_right (le_of_lt h)]
      · right
        simp only [List.foldr_cons]
        rw [max_eq_right (le_of_lt h)]
        exact List.mem_cons_of_mem _ hmem

theorem find?_first {α : Type} (p : α → Bool) :
    ∀ (l : List α) {a : α}, l.find? p = some a →
      ∃ i, ∃ hi : i < l.length, l.get ⟨i, hi⟩ = a ∧ p a = true ∧
        ∀ j (hj : j < l.length), j < i → p (l.get ⟨j, hj⟩) = false := by
  intro l
  induction l with
  | nil => intro a h; simp [List.find?] at h
  | cons x xs ih =>
    intro a h
    rw [List.find?_cons] at h
    split at h
    · next hpx =>
      refine ⟨0, by simp, by simpa using Option.some.inj h, ?_, ?_⟩
      · rw [← Option.some.inj h]
        exact hpx
      · intro j hj hj0
        omega
    · next hpx =>
      obtain ⟨i, hi, hget, hpa, hprev⟩ := ih h
      refine ⟨i + 1, by simpa using hi, by simpa using hget, hpa, ?_⟩
      intro j hj hji
      cases j with
      | zero => simpa using hpx
      | succ k =>
        have hk : k < xs.length := by simpa using hj
        have := hprev k hk (by omega)
        simpa using this

theorem addBonus_fst (sc : List (String × ℚ)) (cat : String) (d : ℚ) :
    (addBonus sc cat d).map Prod.fst = sc.map Prod.fst := by
  unfold addBonus
  rw [List.map_map]
  apply List.map_congr_left
  intro pv _
  by_cases h : pv.1 = cat <;> simp [h]

theorem scoresList_names (text filename : String) :
    (scoresList text filename).map Prod.fst = categoryTable.map Prod.fst := by
  unfold scoresList
  dsimp only
  split_ifs <;>
    simp only [addBonus_fst, List.map_map] <;>
    exact List.map_congr_left (fun cw _ => rfl)

theorem general_not_mem_names :
    "general" ∉ categoryTable.map Prod.fst := by decide

end FileProcessor

/-- C6: `categorizeContent` returns `"general"` exactly when the maximum
category score (bonuses included) is zero; otherwise it returns the category
with the highest score, and on ties the one coming first in the fixed
category declaration order wins (every earlier category scores strictly below
the maximum).  The scores are the program's IEEE-double scores, modelled
exactly (`dAdd` / `dMul` / `roundDouble`), and a tie means equality of those
computed doubles, as in the source's `score === maxScore`; ideal-arithmetic
coincidences such as `3 * 1.2 = 2 * 0.8 + 2` are *not* ties in the computed
scores (`3 * 1.2` rounds below `2 * 0.8 + 2`, so the model, like the program,
categorizes `"phone phone phone fee fee ₹"` as `"pricing"`). -/
theorem claim_C6_categorize (text filename : String) :
    (FileProcessor.categorizeContent text filename = "general" ↔
      FileProcessor.maxScore text filename = 0) ∧
    (∀ pv ∈ FileProcessor.scoresList text filename,
      pv.2 ≤ FileProcessor.maxScore text filename) ∧
    (FileProcessor.maxScore text filename ≠ 0 →
      ∃ i, ∃ hi : i < (FileProcessor.scoresList text filename).length,
        ((FileProcessor.scoresList text filename).get ⟨i, hi⟩).1 =
          FileProcessor.categorizeContent text filename ∧
        ((FileProcessor.scoresList text filename).get ⟨i, hi⟩).2 =
          FileProcessor.maxScore text filename ∧
        ∀ j (hj : j < (FileProcessor.scoresList text filename).length), j < i →
          ((FileProcessor.scoresList text filename).get ⟨j, hj⟩).2 ≠
            FileProcessor.maxScore text filename) := by
  have hle : ∀ pv ∈ FileProcessor.scoresList text filename,
      pv.2 ≤ FileProcessor.maxScore text filename := by
    intro pv hpv
    exact FileProcessor.le_foldr_max _ _ (List.mem_map_of_mem Prod.snd hpv)
  have hfind : FileProcessor.maxScore text filename ≠ 0 →
      ∃ pv, (FileProcessor.scoresList text filename).find?
        (fun q => q.2 = FileProcessor.maxScore text filename) = some pv := by
    intro hM
    rcases FileProcessor.foldr_max_mem
      ((FileProcessor.scoresList text filename).map Prod.snd) with h0 | hmem
    · exact absurd h0 hM
    · obtain ⟨pv, hpv, hpveq⟩ := List.mem_map.mp hmem
      cases hf : (FileProcessor.scoresList text filename).find?
          (fun q => q.2 = FileProcessor.maxScore text filename) with
      | some q => exact ⟨q, rfl⟩
      | none =>
        have := List.find?_eq_none.mp hf pv hpv
        simp only [FileProcessor.maxScore] at this
        exact absurd (by simpa using hpveq) (by simpa using this)
  refine ⟨⟨?_, ?_⟩, hle, ?_⟩
  · intro hgen
    by_contra hM
    obtain ⟨pv, hpv⟩ := hfind hM
    have hcat : FileProcessor.categorizeContent text filename = pv.1 := by
      unfold FileProcessor.categorizeContent
      rw [if_neg hM, hpv]
    have hmem := List.mem_of_find?_eq_some hpv
    have hname : pv.1 ∈ (FileProcessor.scoresList text filename).map Prod.fst :=
      List.mem_map_of_mem Prod.fst hmem
    rw [FileProcessor.scoresList_names] at hname
    rw [hcat] at hgen
    rw [hgen] at hname
    exact FileProcessor.general_not_mem_names hname
  · intro hM
    unfold FileProcessor.categorizeContent
    rw [if_pos hM]
  · intro hM
    obtain ⟨pv, hpv⟩ := hfind hM
    have hcat : FileProcessor.categorizeContent text filename = pv.1 := by
      unfold FileProcessor.categorizeContent
      rw [if_neg hM, hpv]
    obtain ⟨i, hi, hget, hpa, hprev⟩ := FileProcessor.find?_first _ _ hpv
    refine ⟨i, hi, ?_, ?_, ?_⟩
    · rw [hget, hcat]
    · rw [hget]
      exact of_decide_eq_true hpa
    · intro j hj hji
      have := hprev j hj hji
      simpa using this

theorem claim_C6_categorize_witness :
    (FileProcessor.categorizeContent "phone phone phone fee fee ₹" "" =
        "general" ↔
      FileProcessor.maxScore "phone phone phone fee fee ₹" "" = 0) ∧
    (∀ pv ∈ FileProcessor.scoresList "phone phone phone fee fee ₹" "",
      pv.2 ≤ FileProcessor.maxScore "phone phone phone fee fee ₹" "") :=
  ⟨(claim_C6_categorize "phone phone phone fee fee ₹" "").1,
   (claim_C6_categorize "phone phone phone fee fee ₹" "").2.1⟩

namespace AISystem

/-! ### Retrieval facts -/

/-- The head of the descending stable sort is a member and a maximum of the
key. -/
theorem mergeSort_head_max (l : List (Chunk × ℕ)) (best : Chunk × ℕ)
    (h : (l.mergeSort (fun a b => decide (b.2 ≤ a.2))).head? = some best) :
    best ∈ l ∧ ∀ x ∈ l, x.2 ≤ best.2 := by
  have hsorted : List.Pairwise
      (fun a b : Chunk × ℕ => (decide (b.2 ≤ a.2)) = true)
      (l.mergeSort (fun a b => decide (b.2 ≤ a.2))) :=
    List.sorted_mergeSort
      (fun a b c hab hbc => by
        simp only [decide_eq_true_eq] at hab hbc ⊢
        omega)
      (fun a b => by
        simp only [Bool.or_eq_true, decide_eq_true_eq]
        omega) l
  have hperm := List.mergeSort_perm l (fun a b => decide (b.2 ≤ a.2))
  cases hms : l.mergeSort (fun a b => decide (b.2 ≤ a.2)) with
  | nil => rw [hms] at h; simp at h
  | cons b t =>
    rw [hms] at h
    have hbb : b = best := by simpa using h
    subst hbb
    rw [hms] at hsorted hperm
    have hpc := (List.pairwise_cons.mp hsorted).1
    constructor
    · exact hperm.mem_iff.mp (List.mem_cons_self _ _)
    · intro x hx
      rcases List.mem_cons.mp (hperm.mem_iff.mpr hx) with hxb | hxt
      · subst hxb
        exact le_refl _
      · have := hpc x hxt
        simpa using this

/-- Every selected chunk comes from the stored chunk list. -/
theorem selected_subset (simOf : Chunk → ℚ) (chunks : List Chunk) (topK : ℕ) :
    ∀ c ∈ (((chunks.map (fun c => (c, simOf c))).mergeSort
        (fun a b => decide (b.2 ≤ a.2))).map Prod.fst).take topK,
      c ∈ chunks := by
  intro c hc
  have h1 := List.mem_of_mem_take hc
  obtain ⟨pc, hpc, hfst⟩ := List.mem_map.mp h1
  have h2 := (List.mergeSort_perm (chunks.map (fun c => (c, simOf c)))
    (fun a b => decide (b.2 ≤ a.2))).mem_iff.mp hpc
  obtain ⟨c0, hc0, heq⟩ := List.mem_map.mp h2
  rw [← heq] at hfst
  rw [← hfst]
  exact hc0

end AISystem

/-- C1: for every contact-like query and every chunk set (with the stored
chunks carrying pairwise distinct database ids) containing at least one chunk
of positive contact-heuristic score, `retrieveRelevantChunks` returns a list
that contains a best-scoring contact chunk — for *every* possible similarity
assignment, hence even when that chunk ranks outside the raw top-K by cosine
similarity alone — and the returned list never has more than `topK` elements
(`topK ≥ 1`, default 6). -/
theorem claim_C1_contact_override (simOf : AISystem.Chunk → ℚ)
    (chunks : List AISystem.Chunk) (query : String) (topK : ℕ)
    (hq : AISystem.isContactLike query = true)
    (hpos : ∃ ch ∈ chunks, 0 < AISystem.contactChunkScore ch.content)
    (hids : (chunks.map AISystem.Chunk.id).Nodup)
    (hk : 1 ≤ topK) :
    (∃ c ∈ AISystem.retrieveRelevantChunks simOf chunks query topK,
      0 < AISystem.contactChunkScore c.content ∧
      ∀ c' ∈ chunks, AISystem.contactChunkScore c'.content ≤
        AISystem.contactChunkScore c.content) ∧
    (AISystem.retrieveRelevantChunks simOf chunks query topK).length ≤ topK := by
  obtain ⟨ch0, hch0, hch0pos⟩ := hpos
  have hne : chunks.isEmpty ≠ true := by
    intro h
    rw [List.isEmpty_iff.mp h] at hch0
    simp at hch0
  unfold AISystem.retrieveRelevantChunks
  rw [if_neg hne, if_pos hq]
  have hch0mem : (ch0, AISystem.contactChunkScore ch0.content) ∈
      (chunks.map (fun c => (c, AISystem.contactChunkScore c.content))).filter
        (fun pc => decide (0 < pc.2)) := by
    rw [List.mem_filter]
    exact ⟨List.mem_map_of_mem _ hch0, by simpa using hch0pos⟩
  split
  · next heq =>
    exfalso
    have hperm := List.mergeSort_perm
      ((chunks.map (fun c => (c, AISystem.contactChunkScore c.content))).filter
        (fun pc => decide (0 < pc.2)))
      (fun a b => decide (b.2 ≤ a.2))
    have := hperm.mem_iff.mpr hch0mem
    rw [List.head?_eq_none_iff.mp heq] at this
    simp at this
  · next best heq =>
    obtain ⟨hbestmem, hbestmax⟩ := AISystem.mergeSort_head_max _ best heq
    have hbest2 : best.2 = AISystem.contactChunkScore best.1.content ∧
        best.1 ∈ chunks ∧ 0 < best.2 := by
      have h1 := List.mem_filter.mp hbestmem
      obtain ⟨c0, hc0, heq0⟩ := List.mem_map.mp h1.1
      refine ⟨?_, ?_, by simpa using h1.2⟩
      · rw [← heq0]
      · rw [← heq0]
        exact hc0
    have hmaxall : ∀ c' ∈ chunks, AISystem.contactChunkScore c'.content ≤
        AISystem.contactChunkScore best.1.content := by
      intro c' hc'
      rw [← hbest2.1]
      by_cases hpos' : 0 < AISystem.contactChunkScore c'.content
      · exact hbestmax (c', AISystem.contactChunkScore c'.content)
          (List.mem_filter.mpr
            ⟨List.mem_map_of_mem _ hc', by simpa using hpos'⟩)
      · omega
    split
    · next hany =>
      obtain ⟨csel, hcselmem, hcselid⟩ := List.any_eq_true.mp hany
      have hcselchunks := AISystem.selected_subset simOf chunks topK csel hcselmem
      have hceq : csel = best.1 :=
        List.inj_on_of_nodup_map hids hcselchunks hbest2.2.1
          (of_decide_eq_true hcselid)
      refine ⟨⟨best.1, ?_, by rw [← hbest2.1]; exact hbest2.2.2, hmaxall⟩, ?_⟩
      · rw [← hceq]
        exact hcselmem
      · rw [List.length_take]
        exact min_le_left _ _
    · next hany =>
      refine ⟨⟨best.1, ?_, by rw [← hbest2.1]; exact hbest2.2.2, hmaxall⟩, ?_⟩
      · exact List.mem_append_right _ (List.mem_singleton.mpr rfl)
      · rw [List.length_append, List.length_take, List.length_singleton]
        have : min (topK - 1) ((((chunks.map (fun c => (c, simOf c))).mergeSort
            (fun a b => decide (b.2 ≤ a.2))).map Prod.fst).take topK).length ≤
            topK - 1 := min_le_left _ _
        omega

theorem claim_C1_contact_override_witness :
    (∃ c ∈ AISystem.retrieveRelevantChunks
        (fun c => if c.id = 2 then 0 else 1)
        [⟨1, "hello world"⟩, ⟨2, "=== CONTACT_CARD ===\nPhone: 123"⟩,
         ⟨3, "x"⟩] "what is your phone number?" 1,
      0 < AISystem.contactChunkScore c.content ∧
      ∀ c' ∈ [(⟨1, "hello world"⟩ : AISystem.Chunk),
          ⟨2, "=== CONTACT_CARD ===\nPhone: 123"⟩, ⟨3, "x"⟩],
        AISystem.contactChunkScore c'.content ≤
          AISystem.contactChunkScore c.content) ∧
    (AISystem.retrieveRelevantChunks (fun c => if c.id = 2 then 0 else 1)
      [⟨1, "hello world"⟩, ⟨2, "=== CONTACT_CARD ===\nPhone: 123"⟩,
       ⟨3, "x"⟩] "what is your phone number?" 1).length ≤ 1 :=
  claim_C1_contact_override (fun c => if c.id = 2 then 0 else 1)
    [⟨1, "hello world"⟩, ⟨2, "=== CONTACT_CARD ===\nPhone: 123"⟩, ⟨3, "x"⟩]
    "what is your phone number?" 1 (by decide)
    ⟨⟨2, "=== CONTACT_CARD ===\nPhone: 123"⟩, by decide, by decide⟩
    (by decide) (by decide)

end BusinessChatbot
